import Mathlib

/-!
Verification of the DICOM primitive-value codec core.

Shallow embedding of
* the DICOM date/time parsers of `src/core/src/value/deserialize.rs`, and
* the RLE-Lossless pixel-data decoder of
  `src/encoding/src/adapters/rle_lossless.rs`.

Bytes are modelled as natural numbers (values below 256) and byte slices
as `List Nat`.  Fallible Rust functions returning `Result` are modelled
with `Except`; a Rust panic (out-of-bounds index, failed `assert_eq!`,
out-of-range `FixedOffset`) is modelled by a dedicated `panicked`
error value, clearly separate from the errors the code returns.
-/

namespace Dicom

/-- Rust slice expression `l[a..b]`, for `a ≤ b ≤ l.length` (callers in this
development only use it under those conditions, or guard it). -/
def slice (l : List Nat) (a b : Nat) : List Nat := (l.drop a).take (b - a)

/-- Is the byte an ASCII digit (`(b'0'..=b'9').contains(b)`)? -/
def isDigitByte (b : Nat) : Bool := decide (48 ≤ b ∧ b ≤ 57)

/-- `Iterator::position` on a byte slice: index of the first byte satisfying `p`. -/
def position (p : Nat → Bool) : List Nat → Option Nat
  | [] => none
  | b :: rest => if p b then some 0 else (position p rest).map (· + 1)

/-- `DateComponent` from the source (subset used by the parsers). -/
inductive DateComponent where
  | year | month | day | hour | minute | second | fraction | utcOffset
deriving DecidableEq

/-- The deserializer error type (`Error` in `deserialize.rs`).  Payloads keep
the structured context of the source (offending byte value, length,
component).  `panicked` models a Rust panic/abort, which is not an error
value of the source; it is produced only by the model of the `chrono`
`FixedOffset::east/west` constructors, which panic on out-of-range offsets. -/
inductive ParseError where
  | unexpectedEndOfElement
  | invalidDate
  | invalidTime
  | invalidDateTimeZone
  | fractionDelimiter (value : Nat)
  | invalidNumberLength (len : Nat)
  | invalidNumberToken (value : Nat)
  | invalidTimeZoneSignToken (value : Nat)
  | incompleteValue (component : DateComponent)
  | invalidComponent (component : DateComponent) (value : Nat)
  | partialValue (component : DateComponent) (value : Nat)
  | invalidDateTime
  | panicked
deriving DecidableEq

/-- Value of a nonempty digit string: `read_number_unchecked` from the source
(`(&buf[1..]).iter().fold((buf[0] - b'0').into(), |acc, v| acc * 10 + (*v - b'0'))`). -/
def digitsVal : List Nat → Nat
  | [] => 0
  | b :: rest => rest.foldl (fun acc v => acc * 10 + (v - 48)) (b - 48)

/-- `read_number` from the source: 1 to 9 ASCII digit bytes to an integer. -/
def readNumber (text : List Nat) : Except ParseError Nat :=
  if text.length = 0 ∨ 9 < text.length then
    .error (.invalidNumberLength text.length)
  else
    match text.find? (fun b => ! isDigitByte b) with
    | some c => .error (.invalidNumberToken c)
    | none => .ok (digitsVal text)

/-- Modelled from the spec: `check_component` lives in
`core/src/value/partial.rs`, which is not among the provided sources.
Valid ranges per spec sections 3 and 4.2: year 0..9999, month 1..12,
day 1..31, hour 0..23, minute 0..59, second 0..60 (leap second),
fraction 0..999999, and UTC offset magnitude strictly below 24*3600. -/
def checkComponent : DateComponent → Nat → Bool
  | .year, v => decide (v ≤ 9999)
  | .month, v => decide (1 ≤ v ∧ v ≤ 12)
  | .day, v => decide (1 ≤ v ∧ v ≤ 31)
  | .hour, v => decide (v ≤ 23)
  | .minute, v => decide (v ≤ 59)
  | .second, v => decide (v ≤ 60)
  | .fraction, v => decide (v ≤ 999999)
  | .utcOffset, v => decide (v < 86400)

/-- Modelled from the spec: whether a year is a Gregorian leap year
(used by the model of `chrono::NaiveDate::from_ymd_opt`). -/
def isLeapYear (y : Nat) : Bool :=
  decide (y % 4 = 0 ∧ (y % 100 ≠ 0 ∨ y % 400 = 0))

/-- Modelled from the spec: Gregorian month lengths. -/
def daysInMonth (y m : Nat) : Nat :=
  match m with
  | 2 => if isLeapYear y then 29 else 28
  | 4 | 6 | 9 | 11 => 30
  | _ => 31

/-- A fully specified calendar date (model of `chrono::NaiveDate`). -/
structure NaiveDate where
  year : Nat
  month : Nat
  day : Nat
deriving DecidableEq

/-- Modelled from the spec: `chrono::NaiveDate::from_ymd_opt` — `some` exactly
on valid Gregorian dates (month length and leap years included). -/
def NaiveDate.from_ymd_opt (y m d : Nat) : Option NaiveDate :=
  if 1 ≤ m ∧ m ≤ 12 ∧ 1 ≤ d ∧ d ≤ daysInMonth y m then some ⟨y, m, d⟩ else none

/-- A fully specified time of day with microseconds (model of `chrono::NaiveTime`). -/
structure NaiveTime where
  hour : Nat
  minute : Nat
  second : Nat
  micro : Nat
deriving DecidableEq

/-- Modelled from the spec: `chrono::NaiveTime::from_hms_micro_opt` with the
component ranges of spec section 4.2.4 (hour 0..23, minute 0..59, second
0..60 for the leap second, fraction 0..999999). -/
def NaiveTime.from_hms_micro_opt (h m s micro : Nat) : Option NaiveTime :=
  if h ≤ 23 ∧ m ≤ 59 ∧ s ≤ 60 ∧ micro ≤ 999999 then some ⟨h, m, s, micro⟩ else none

/-- Precision-tagged partial date (`DicomDate`). -/
inductive DicomDate where
  | year (y : Nat)
  | month (y m : Nat)
  | day (y m d : Nat)
deriving DecidableEq

/-- Modelled from the spec: `DicomDate::from_y` (from `partial.rs`, not under
the provided sources) — validates the year range. -/
def DicomDate.from_y (y : Nat) : Except ParseError DicomDate :=
  if checkComponent .year y then .ok (.year y) else .error (.partialValue .year y)

/-- Modelled from the spec: `DicomDate::from_ym` — validates year and month. -/
def DicomDate.from_ym (y m : Nat) : Except ParseError DicomDate :=
  if checkComponent .year y then
    if checkComponent .month m then .ok (.month y m)
    else .error (.partialValue .month m)
  else .error (.partialValue .year y)

/-- Modelled from the spec: `DicomDate::from_ymd` — validates year, month and
day ranges only (day 1..31); month length and leap years are NOT checked. -/
def DicomDate.from_ymd (y m d : Nat) : Except ParseError DicomDate :=
  if checkComponent .year y then
    if checkComponent .month m then
      if checkComponent .day d then .ok (.day y m d)
      else .error (.partialValue .day d)
    else .error (.partialValue .month m)
  else .error (.partialValue .year y)

/-- Precision-tagged partial time (`DicomTime`). -/
inductive DicomTime where
  | hour (h : Nat)
  | minute (h m : Nat)
  | second (h m s : Nat)
  | fraction (h m s f fp : Nat)
deriving DecidableEq

/-- Bool discriminator: is this partial time fraction-precise? -/
def DicomTime.isFraction : DicomTime → Bool
  | .fraction _ _ _ _ _ => true
  | _ => false

/-- Modelled from the spec: `DicomTime::from_h`. -/
def DicomTime.from_h (h : Nat) : Except ParseError DicomTime :=
  if checkComponent .hour h then .ok (.hour h) else .error (.partialValue .hour h)

/-- Modelled from the spec: `DicomTime::from_hm`. -/
def DicomTime.from_hm (h m : Nat) : Except ParseError DicomTime :=
  if checkComponent .hour h then
    if checkComponent .minute m then .ok (.minute h m)
    else .error (.partialValue .minute m)
  else .error (.partialValue .hour h)

/-- Modelled from the spec: `DicomTime::from_hms`. -/
def DicomTime.from_hms (h m s : Nat) : Except ParseError DicomTime :=
  if checkComponent .hour h then
    if checkComponent .minute m then
      if checkComponent .second s then .ok (.second h m s)
      else .error (.partialValue .second s)
    else .error (.partialValue .minute m)
  else .error (.partialValue .hour h)

/-- Modelled from the spec: `DicomTime::from_hmsf` — additionally requires
1 ≤ fp ≤ 6 and fraction < 10^fp (spec section 3). -/
def DicomTime.from_hmsf (h m s f fp : Nat) : Except ParseError DicomTime :=
  if checkComponent .hour h then
    if checkComponent .minute m then
      if checkComponent .second s then
        if 1 ≤ fp ∧ fp ≤ 6 ∧ f < 10 ^ fp then .ok (.fraction h m s f fp)
        else .error (.partialValue .fraction f)
      else .error (.partialValue .second s)
    else .error (.partialValue .minute m)
  else .error (.partialValue .hour h)

/-- `parse_date`: strict DICOM DA parser. -/
def parseDate (buf : List Nat) : Except ParseError NaiveDate :=
  if buf.length = 4 then do
    let _year ← readNumber (buf.take 4)
    .error (.incompleteValue .month)
  else if buf.length = 6 then do
    let _year ← readNumber (buf.take 4)
    let month ← readNumber (slice buf 4 6)
    if checkComponent .month month then .error (.incompleteValue .day)
    else .error (.invalidComponent .month month)
  else if 8 ≤ buf.length then do
    let year ← readNumber (buf.take 4)
    let month ← readNumber (slice buf 4 6)
    if checkComponent .month month then do
      let day ← readNumber (slice buf 6 8)
      if checkComponent .day day then
        match NaiveDate.from_ymd_opt year month day with
        | some d => .ok d
        | none => .error .invalidDate
      else .error (.invalidComponent .day day)
    else .error (.invalidComponent .month month)
  else .error .unexpectedEndOfElement

/-- `parse_date_partial`: greedy partial DICOM DA parser, returning the value
and the unconsumed tail. -/
def parseDatePartial (buf : List Nat) : Except ParseError (DicomDate × List Nat) :=
  if buf.length < 4 then .error .unexpectedEndOfElement
  else do
    let year ← readNumber (buf.take 4)
    let buf1 := buf.drop 4
    if buf1.length < 2 then do
      let d ← DicomDate.from_y year
      .ok (d, buf1)
    else
      match readNumber (buf1.take 2) with
      | .error _ => do
        let d ← DicomDate.from_y year
        .ok (d, buf1)
      | .ok month =>
        let buf2 := buf1.drop 2
        if buf2.length < 2 then do
          let d ← DicomDate.from_ym year month
          .ok (d, buf2)
        else
          match readNumber (buf2.take 2) with
          | .error _ => do
            let d ← DicomDate.from_ym year month
            .ok (d, buf2)
          | .ok day => do
            let d ← DicomDate.from_ymd year month day
            .ok (d, buf2.drop 2)

/-- `parse_time_partial`: greedy partial DICOM TM parser.  Note the fraction
branch requires `buf.len() > 1 && buf[0] == b'.'` — at least TWO remaining
bytes — exactly as in the source. -/
def parseTimePartial (buf : List Nat) : Except ParseError (DicomTime × List Nat) :=
  if buf.length < 2 then .error .unexpectedEndOfElement
  else do
    let hour ← readNumber (buf.take 2)
    let buf1 := buf.drop 2
    if buf1.length < 2 then do
      let t ← DicomTime.from_h hour
      .ok (t, buf1)
    else
      match readNumber (buf1.take 2) with
      | .error _ => do
        let t ← DicomTime.from_h hour
        .ok (t, buf1)
      | .ok minute =>
        let buf2 := buf1.drop 2
        if buf2.length < 2 then do
          let t ← DicomTime.from_hm hour minute
          .ok (t, buf2)
        else
          match readNumber (buf2.take 2) with
          | .error _ => do
            let t ← DicomTime.from_hm hour minute
            .ok (t, buf2)
          | .ok second =>
            let buf3 := buf2.drop 2
            if 1 < buf3.length ∧ buf3.headD 0 = 46 then do
              let buf4 := buf3.drop 1
              let m := (position (fun b => ! isDigitByte b) buf4).getD buf4.length
              let n := min 6 m
              let fraction ← readNumber (buf4.take n)
              let t ← DicomTime.from_hmsf hour minute second fraction n
              .ok (t, buf4.drop n)
            else do
              let t ← DicomTime.from_hms hour minute second
              .ok (t, buf3)

/-- The `while acc < 6 { fraction *= 10; acc += 1 }` right-padding loop of
`parse_time`, in closed form: starting from `acc = n` the fraction is
multiplied by ten `6 - n` times. -/
def padTo6 (f n : Nat) : Nat := f * 10 ^ (6 - n)

/-- `parse_time`: strict DICOM TM parser (fraction delimiter mandatory). -/
def parseTime (buf : List Nat) : Except ParseError (NaiveTime × List Nat) :=
  if buf.length = 2 then do
    let hour ← readNumber (buf.take 2)
    if checkComponent .hour hour then .error (.incompleteValue .minute)
    else .error (.invalidComponent .hour hour)
  else if buf.length = 4 then do
    let hour ← readNumber (buf.take 2)
    if checkComponent .hour hour then do
      let minute ← readNumber (slice buf 2 4)
      if checkComponent .minute minute then .error (.incompleteValue .second)
      else .error (.invalidComponent .minute minute)
    else .error (.invalidComponent .hour hour)
  else if buf.length = 6 then do
    let hour ← readNumber (buf.take 2)
    if checkComponent .hour hour then do
      let minute ← readNumber (slice buf 2 4)
      if checkComponent .minute minute then do
        let second ← readNumber (slice buf 4 6)
        if checkComponent .second second then .error (.incompleteValue .fraction)
        else .error (.invalidComponent .second second)
      else .error (.invalidComponent .minute minute)
    else .error (.invalidComponent .hour hour)
  else if 8 ≤ buf.length then do
    let hour ← readNumber (buf.take 2)
    if checkComponent .hour hour then do
      let minute ← readNumber (slice buf 2 4)
      if checkComponent .minute minute then do
        let second ← readNumber (slice buf 4 6)
        if checkComponent .second second then
          let buf1 := buf.drop 6
          if buf1.headD 0 ≠ 46 then .error (.fractionDelimiter (buf1.headD 0))
          else do
            let buf2 := buf1.drop 1
            let m := (position (fun b => ! isDigitByte b) buf2).getD buf2.length
            let n := min 6 m
            let fraction ← readNumber (buf2.take n)
            let fraction := padTo6 fraction n
            let buf3 := buf2.drop n
            if checkComponent .fraction fraction then
              match NaiveTime.from_hms_micro_opt hour minute second fraction with
              | some t => .ok (t, buf3)
              | none => .error .invalidTime
            else .error (.invalidComponent .fraction fraction)
        else .error (.invalidComponent .second second)
      else .error (.invalidComponent .minute minute)
    else .error (.invalidComponent .hour hour)
  else .error .unexpectedEndOfElement

/-- Modelled from the spec: `chrono::FixedOffset::east` — a fixed offset of
`s` seconds east; panics (aborts) when the offset is not strictly within
24 hours. -/
def fixedEast (s : Nat) : Except ParseError Int :=
  if s < 86400 then .ok (Int.ofNat s) else .error .panicked

/-- Modelled from the spec: `chrono::FixedOffset::west` — a fixed offset of
`s` seconds west (stored negated); panics outside strict 24 hours. -/
def fixedWest (s : Nat) : Except ParseError Int :=
  if s < 86400 then .ok (-(Int.ofNat s)) else .error .panicked

/-- A strict date-time: date, time and UTC offset in seconds (model of
`chrono::DateTime<FixedOffset>` as composed by `parse_datetime`). -/
structure StrictDateTime where
  date : NaiveDate
  time : NaiveTime
  offset : Int
deriving DecidableEq

/-- `parse_datetime`: strict DICOM DT parser.  For a fixed offset the chrono
compositions `from_local_date(..).and_time(..).single()` (no suffix) and
`from_utc_date(..).and_time(..)` (with suffix) always succeed, so both are
modelled as plain construction of the triple. -/
def parseDatetime (buf : List Nat) (dtUtcOffset : Int) : Except ParseError StrictDateTime := do
  let date ← parseDate buf
  let buf1 := buf.drop 8
  let (time, buf2) ← parseTime buf1
  if buf2.length = 0 then
    .ok ⟨date, time, dtUtcOffset⟩
  else if 4 < buf2.length then do
    let tzSign := buf2.headD 0
    let buf3 := buf2.drop 1
    let tzH ← readNumber (buf3.take 2)
    let tzM ← readNumber (slice buf3 2 4)
    let s := (tzH * 60 + tzM) * 60
    let offset ←
      match tzSign with
      | 43 => fixedEast s
      | 45 => fixedWest s
      | c => .error (.invalidTimeZoneSignToken c)
    .ok ⟨date, time, offset⟩
  else .error .unexpectedEndOfElement

/-- A partial date-time (`DicomDateTime`): partial date, optional partial
time, UTC offset in seconds. -/
structure DicomDateTime where
  date : DicomDate
  time : Option DicomTime
  offset : Int
deriving DecidableEq

/-- `DicomDateTime::from_dicom_date`. -/
def DicomDateTime.from_dicom_date (d : DicomDate) (offset : Int) : DicomDateTime :=
  ⟨d, none, offset⟩

/-- Modelled from the spec: `DicomDateTime::from_dicom_date_and_time`
(spec section 4.2.7 step 4 describes plain composition). -/
def DicomDateTime.from_dicom_date_and_time (d : DicomDate) (t : DicomTime) (offset : Int) :
    Except ParseError DicomDateTime :=
  .ok ⟨d, some t, offset⟩

/-- The timezone-suffix block of `parse_datetime_partial` (`deserialize.rs`
lines 407-423): empty remainder keeps the default offset; a remainder of
more than 4 bytes is parsed as sign + HHMM and validated against 24 hours;
anything else is an error. -/
def parseTzPartial (buf : List Nat) (dtUtcOffset : Int) : Except ParseError Int :=
  if buf.length = 0 then .ok dtUtcOffset
  else if 4 < buf.length then do
    let tzSign := buf.headD 0
    let buf1 := buf.drop 1
    let tzH ← readNumber (buf1.take 2)
    let tzM ← readNumber (slice buf1 2 4)
    let s := (tzH * 60 + tzM) * 60
    if checkComponent .utcOffset s then
      match tzSign with
      | 43 => fixedEast s
      | 45 => fixedWest s
      | c => .error (.invalidTimeZoneSignToken c)
    else .error (.invalidComponent .utcOffset s)
  else .error .unexpectedEndOfElement

/-- `parse_datetime_partial`: partial DICOM DT parser.  A failing
`parse_time_partial` is swallowed and its input restored. -/
def parseDatetimePartial (buf : List Nat) (dtUtcOffset : Int) :
    Except ParseError DicomDateTime := do
  let (date, rest) ← parseDatePartial buf
  let (time, buf1) :=
    match parseTimePartial rest with
    | .ok (t, b) => (some t, b)
    | .error _ => (none, rest)
  let offset ← parseTzPartial buf1 dtUtcOffset
  match time with
  | some t => DicomDateTime.from_dicom_date_and_time date t offset
  | none => .ok (DicomDateTime.from_dicom_date date offset)

/-- Two-digit zero-padded ASCII encoding of a number below 100 (the form in
which every two-digit date/time component appears on the wire). -/
def digit2 (n : Nat) : List Nat := [48 + n / 10, 48 + n % 10]

/-! ## RLE-Lossless decoder (`src/encoding/src/adapters/rle_lossless.rs`) -/

/-- Error type of `decode_rle_segment`.  The source function returns
`io::Result<usize>`: `eof` models a returned `UnexpectedEof` error from
`read_exact`, while `panicked` models a Rust abort (an out-of-bounds
index or slice inside the function).  The source has no error value for
an overflowing run: overflow hits the bounds check of `target_buffer[i]`
or of the slice `target_buffer[pos..pos + num_vals]` and panics. -/
inductive SegErr where
  | eof
  | panicked
deriving DecidableEq

/-- `for i in pos..pos+cnt { buf[i] = d }`, under the precondition
(checked by the caller in this model) that all indices are in bounds. -/
def fillN (buf : List Nat) (pos cnt d : Nat) : List Nat :=
  match cnt with
  | 0 => buf
  | c + 1 => fillN (buf.set pos d) (pos + 1) c d

/-- `reader.read_exact(&mut buf[pos..pos+vals.length])`: copy `vals` into
`buf` starting at `pos` (bounds checked by the caller in this model). -/
def setSlice (buf : List Nat) (pos : Nat) (vals : List Nat) : List Nat :=
  match vals with
  | [] => buf
  | v :: rest => setSlice (buf.set pos v) (pos + 1) rest

/-- `decode_rle_segment`: PackBits-style decoding of `input` into `buf`
starting at write position `pos`, until `buf` is full.  Control byte in
129..=255 (`-127..=-1` as i8): read one data byte, write `257 - h` copies;
control byte 0..=127: copy `h + 1` literal bytes; 128 (`-128`): no-op.
A write that would pass the end of `buf` is an out-of-bounds panic (the
bound is checked before the data is consumed in the literal case, and
after the single data byte is read in the run case, exactly as the panics
fire in the source); exhausted input is a returned `eof` error. -/
def decodeSegment (input : List Nat) (buf : List Nat) (pos : Nat) :
    Except SegErr (List Nat × Nat) :=
  if pos < buf.length then
    match input with
    | [] => .error .eof
    | h :: rest =>
      if 129 ≤ h then
        match rest with
        | [] => .error .eof
        | d :: rest2 =>
          if pos + (257 - h) ≤ buf.length then
            decodeSegment rest2 (fillN buf pos (257 - h) d) (pos + (257 - h))
          else .error .panicked
      else if h ≤ 127 then
        if pos + (h + 1) ≤ buf.length then
          if h + 1 ≤ rest.length then
            decodeSegment (rest.drop (h + 1)) (setSlice buf pos (rest.take (h + 1)))
              (pos + (h + 1))
          else .error .eof
        else .error .panicked
      else
        decodeSegment rest buf pos
  else .ok (buf, pos)
termination_by input.length
decreasing_by
  · simp; omega
  · simp [List.length_drop]; omega
  · simp

/-- Names of the required pixel-data attributes (`MissingAttributeSnafu`). -/
inductive RleAttr where
  | columns | rows | samplesPerPixel | bitsAllocated
deriving DecidableEq

/-- Error type of `RLELosslessAdapter::decode`.  `missingAttribute` models
`MissingAttributeSnafu`, `unsupportedBitsAllocated` the `whatever!` for
bits other than 8/16, `invalidPixelData` the missing-fragment-count error,
`missingFrameFragment` the missing-fragment error, `segmentFailure` the
wrapped io error of `decode_rle_segment`, and `panicked` a Rust abort
(out-of-bounds index/slice or the `assert_eq!` on the decoded length). -/
inductive DecodeError where
  | missingAttribute (name : RleAttr)
  | unsupportedBitsAllocated
  | invalidPixelData
  | missingFrameFragment
  | segmentFailure (e : SegErr)
  | panicked
deriving DecidableEq

/-- The `PixelDataObject` capability set used by the decoder. -/
structure PixelDataObject where
  cols : Option Nat
  rows : Option Nat
  samplesPerPixel : Option Nat
  bitsAllocated : Option Nat
  numberOfFragments : Option Nat
  fragment : Nat → Option (List Nat)

/-- Lift an optional attribute, failing with the given error when absent
(`OptionExt::context` / `whatever_context`). -/
def need {α : Type} (o : Option α) (e : DecodeError) : Except DecodeError α :=
  match o with
  | some a => .ok a
  | none => .error e

/-- Little-endian u32 from four bytes. -/
def u32le (l : List Nat) : Nat :=
  match l with
  | [a, b, c, d] => a + 256 * b + 65536 * c + 16777216 * d
  | _ => 0

/-- `read_rle_header`: first little-endian u32 is the segment count `nr`,
the next `nr` u32s are the segment offsets.  The two slices
`fragment[0..4]` and `fragment[4..4*(nr+1)]` panic when the fragment is
too short. -/
def readRleHeader (frag : List Nat) : Except DecodeError (List Nat) :=
  if 4 ≤ frag.length then
    let nr := u32le (frag.take 4)
    if 4 * (nr + 1) ≤ frag.length then
      .ok ((List.range nr).map (fun j => u32le (slice frag (4 * (j + 1)) (4 * (j + 2)))))
    else .error .panicked
  else .error .panicked

/-- `&fragment[a..b]` with the slice bounds checks (panic on violation). -/
def sliceOrPanic (l : List Nat) (a b : Nat) : Except DecodeError (List Nat) :=
  if a ≤ b ∧ b ≤ l.length then .ok (slice l a b) else .error .panicked

/-- Number of elements of `(start..stop).step_by(step)` for `step ≥ 1`. -/
def numSteps (start stop step : Nat) : Nat := (stop - start + step - 1) / step

/-- The interleaving write loop
`for (decoded_index, dst_index) in (start..end).step_by(..).enumerate()
 { dst[dst_index] = decoded_segment[decoded_index] }`:
`idxs` is the list of destination indices, `k` the running decoded index.
Both indexings are bounds-checked (panic on violation), as in the source. -/
def emit (seg : List Nat) (idxs : List Nat) (dst : List Nat) (k : Nat) :
    Except DecodeError (List Nat) :=
  match idxs with
  | [] => .ok dst
  | idx :: rest =>
    match seg[k]? with
    | none => .error .panicked
    | some v =>
      if idx < dst.length then emit seg rest (dst.set idx v) (k + 1)
      else .error .panicked

/-- Decoding of segment number `ii` of a fragment: look up its offsets,
slice it out of the fragment, run `decode_rle_segment` into a fresh
`rows*cols` buffer (`nPix`), wrap io errors, and perform the
`assert_eq!(decode_length, decoded_segment.len())` (a failed assert is an
abort, i.e. `panicked`). -/
def decodedSegmentCore (frag offsets : List Nat) (nPix ii : Nat) :
    Except DecodeError (List Nat) := do
  let a1 ← need offsets[ii]? .panicked
  let a2 ← need offsets[ii + 1]? .panicked
  let seg ← sliceOrPanic frag a1 a2
  match decodeSegment seg (List.replicate nPix 0) 0 with
  | .error .eof => .error (.segmentFailure .eof)
  | .error .panicked => .error .panicked
  | .ok (decoded, n) =>
    if n = decoded.length then .ok decoded else .error .panicked

/-- Body of the `for byte_offset in (0..bytes_per_sample).rev()` loop:
decode segment `p.1 * B + p.2` and interleave it into `dst`.  `p.1` is the
sample number, `p.2` the (not yet reversed) byte offset.  A zero stride
(`step_by(0)`) panics, as in Rust. -/
def processSeg (frag offsets : List Nat) (frameSize S B rows cols i : Nat)
    (dst : List Nat) (p : Nat × Nat) : Except DecodeError (List Nat) := do
  let decoded ← decodedSegmentCore frag offsets (rows * cols) (p.1 * B + p.2)
  let inv := B - p.2 - 1
  let sampleOffset := p.1 * B
  let start := frameSize * i + sampleOffset + inv
  let stop := frameSize * (i + 1)
  let step := B * S
  if 0 < step then
    emit decoded (List.range' start (numSteps start stop step) step) dst 0
  else .error .panicked

/-- The `(sample_number, byte_offset)` iteration order of the two nested
segment loops: samples ascending, byte offsets descending. -/
def pairsSB (S B : Nat) : List (Nat × Nat) :=
  (List.range S).flatMap (fun s => ((List.range B).reverse).map (fun b => (s, b)))

/-- One iteration of the frame loop: fetch the fragment, read its header,
append the fragment length as the terminal offset, and process all
segments of the frame. -/
def processFrame (src : PixelDataObject) (frameSize S B rows cols : Nat)
    (dst : List Nat) (i : Nat) : Except DecodeError (List Nat) := do
  let frag ← need (src.fragment i) .missingFrameFragment
  let offsets0 ← readRleHeader frag
  let offsets := offsets0 ++ [frag.length]
  List.foldlM (processSeg frag offsets frameSize S B rows cols i) dst (pairsSB S B)

/-- `Vec::resize(n, 0)`: truncate or zero-extend to length `n`. -/
def resizeTo (l : List Nat) (n : Nat) : List Nat :=
  if n ≤ l.length then l.take n else l ++ List.replicate (n - l.length) 0

/-- `RLELosslessAdapter::decode`: fetch the attributes, check the bit
depth, resize the destination to `frame_size * nr_frames`, and run the
frame loop. -/
def decode (src : PixelDataObject) (dst : List Nat) : Except DecodeError (List Nat) := do
  let cols ← need src.cols (.missingAttribute .columns)
  let rows ← need src.rows (.missingAttribute .rows)
  let samplesPerPixel ← need src.samplesPerPixel (.missingAttribute .samplesPerPixel)
  let bitsAllocated ← need src.bitsAllocated (.missingAttribute .bitsAllocated)
  if bitsAllocated ≠ 8 ∧ bitsAllocated ≠ 16 then .error .unsupportedBitsAllocated
  else do
    let nrFrames ← need src.numberOfFragments .invalidPixelData
    let bytesPerSample := bitsAllocated / 8
    let stride := bytesPerSample * cols * rows
    let frameSize := samplesPerPixel * stride
    let dst1 := resizeTo dst (frameSize * nrFrames)
    List.foldlM (processFrame src frameSize samplesPerPixel bytesPerSample rows cols)
      dst1 (List.range nrFrames)

/-- The decoded byte plane of segment `ii` of frame `i`, computed directly
from the pixel data object (the quantity the interleaving claim speaks
about): fetch fragment `i`, read its header, decode segment `ii`. -/
def decodedFrameSegment (src : PixelDataObject) (nPix i ii : Nat) :
    Except DecodeError (List Nat) := do
  let frag ← need (src.fragment i) .missingFrameFragment
  let offsets0 ← readRleHeader frag
  decodedSegmentCore frag (offsets0 ++ [frag.length]) nPix ii

/-- A minimal concrete pixel-data object: one frame, one sample, 8 bits,
1x1 pixels; the fragment holds a 64-byte header (one segment at offset 64)
followed by the two-byte literal segment `[0x00, 0xAA]`. -/
def frag0 : List Nat := [1, 0, 0, 0, 64, 0, 0, 0] ++ List.replicate 56 0 ++ [0, 170]

/-- Concrete pixel data object built over `frag0`. -/
def src0 : PixelDataObject :=
  { cols := some 1, rows := some 1, samplesPerPixel := some 1,
    bitsAllocated := some 8, numberOfFragments := some 1,
    fragment := fun i => if i = 0 then some frag0 else none }

/-! ## Basic lemmas about the embedding -/

@[simp] theorem except_bind_ok {α β ε : Type} (a : α) (f : α → Except ε β) :
    (Except.ok a >>= f) = f a := rfl

@[simp] theorem except_bind_error {α β ε : Type} (e : ε) (f : α → Except ε β) :
    ((Except.error e : Except ε α) >>= f) = .error e := rfl

@[simp] theorem except_pure_eq {α ε : Type} (a : α) :
    (pure a : Except ε α) = .ok a := rfl

theorem digit2_len (n : Nat) : (digit2 n).length = 2 := rfl

theorem isDigitByte_digit2_left {n : Nat} (h : n ≤ 99) :
    isDigitByte (48 + n / 10) = true := by
  have : n / 10 ≤ 9 := by omega
  simp [isDigitByte]; omega

theorem isDigitByte_digit2_right (n : Nat) :
    isDigitByte (48 + n % 10) = true := by
  have : n % 10 ≤ 9 := by omega
  simp [isDigitByte]; omega

theorem readNumber_digit2 {n : Nat} (h : n ≤ 99) :
    readNumber (digit2 n) = .ok n := by
  have h1 := isDigitByte_digit2_left h
  have h2 := isDigitByte_digit2_right n
  have hfind : List.find? (fun b => ! isDigitByte b) (digit2 n) = none := by
    rw [List.find?_eq_none]
    intro x hx
    simp only [digit2, List.mem_cons, List.not_mem_nil, or_false] at hx
    rcases hx with hx | hx <;> subst hx <;> simp [h1, h2]
  have hv : digitsVal (digit2 n) = n := by
    simp only [digit2, digitsVal, List.foldl_cons, List.foldl_nil]
    omega
  unfold readNumber
  rw [if_neg (by simp [digit2])]
  rw [hfind, hv]

/-- Claim C4: Gregorian validity (month length, leap years) is enforced by
`parse_date` but not by `parse_date_partial`: on `b"20210229"` the strict
parser fails with `InvalidDate` while the partial parser succeeds with
`Day(2021, 2, 29)` and an empty tail. -/
theorem claim_c4_leap_year_validity :
    parseDate [50, 48, 50, 49, 48, 50, 50, 57] = .error .invalidDate ∧
    parseDatePartial [50, 48, 50, 49, 48, 50, 50, 57] =
      .ok (.day 2021 2 29, []) := ⟨rfl, rfl⟩

/-- Claim C7: whenever `parse_date_partial` succeeds, the consumed prefix
concatenated with the returned tail reconstructs the input exactly. -/
theorem claim_c7_date_partial_prefix_tail (buf : List Nat) (d : DicomDate)
    (tl : List Nat) (h : parseDatePartial buf = .ok (d, tl)) :
    ∃ k, k ≤ buf.length ∧ buf.take k ++ tl = buf := by
  unfold parseDatePartial at h
  split at h
  · simp at h
  · rename_i h4
    cases hy : readNumber (buf.take 4) with
    | error e => rw [hy] at h; simp at h
    | ok year =>
      rw [hy] at h
      simp only [except_bind_ok] at h
      split at h
      · cases hfy : DicomDate.from_y year with
        | error e => rw [hfy] at h; simp at h
        | ok dd =>
          rw [hfy] at h; simp only [except_bind_ok] at h
          simp only [Except.ok.injEq, Prod.mk.injEq] at h
          exact ⟨4, by omega, by rw [← h.2]; exact List.take_append_drop 4 buf⟩
      · split at h
        · cases hfy : DicomDate.from_y year with
          | error e => rw [hfy] at h; simp at h
          | ok dd =>
            rw [hfy] at h; simp only [except_bind_ok] at h
            simp only [Except.ok.injEq, Prod.mk.injEq] at h
            exact ⟨4, by omega, by rw [← h.2]; exact List.take_append_drop 4 buf⟩
        · rename_i month _
          split at h
          · cases hfy : DicomDate.from_ym year month with
            | error e => rw [hfy] at h; simp at h
            | ok dd =>
              rw [hfy] at h; simp only [except_bind_ok] at h
              simp only [Except.ok.injEq, Prod.mk.injEq] at h
              refine ⟨6, ?_, ?_⟩
              · simp only [List.length_drop] at *
                omega
              · rw [← h.2, List.drop_drop]
                exact List.take_append_drop 6 buf
          · split at h
            · cases hfy : DicomDate.from_ym year month with
              | error e => rw [hfy] at h; simp at h
              | ok dd =>
                rw [hfy] at h; simp only [except_bind_ok] at h
                simp only [Except.ok.injEq, Prod.mk.injEq] at h
                refine ⟨6, ?_, ?_⟩
                · simp only [List.length_drop] at *
                  omega
                · rw [← h.2, List.drop_drop]
                  exact List.take_append_drop 6 buf
            · rename_i day _
              cases hfy : DicomDate.from_ymd year month day with
              | error e => rw [hfy] at h; simp at h
              | ok dd =>
                rw [hfy] at h; simp only [except_bind_ok] at h
                simp only [Except.ok.injEq, Prod.mk.injEq] at h
                refine ⟨8, ?_, ?_⟩
                · simp only [List.length_drop] at *
                  omega
                · rw [← h.2, List.drop_drop, List.drop_drop]
                  exact List.take_append_drop 8 buf

/-- Witness for claim C7 at the spec's own boundary example
`parse_date_partial(b"1914121") = (Month(1914, 12), b"1")`. -/
theorem claim_c7_witness :
    ∃ k, k ≤ ([49, 57, 49, 52, 49, 50, 49] : List Nat).length ∧
      ([49, 57, 49, 52, 49, 50, 49] : List Nat).take k ++ [49] =
        [49, 57, 49, 52, 49, 50, 49] :=
  claim_c7_date_partial_prefix_tail _ (.month 1914 12) [49] rfl

/-! ## Lemmas about `position` and digit strings -/

theorem getD_map_succ (o : Option Nat) (m : Nat) :
    (o.map (· + 1)).getD (m + 1) = o.getD m + 1 := by cases o <;> rfl

theorem position_getD_le (p : Nat → Bool) (l : List Nat) :
    (position p l).getD l.length ≤ l.length := by
  induction l with
  | nil => simp [position]
  | cons b t ih =>
    simp only [position, List.length_cons]
    split
    · simp
    · rw [getD_map_succ]
      omega

theorem position_head_false {p : Nat → Bool} {d : Nat} (t : List Nat)
    (h : p d = false) : 1 ≤ (position p (d :: t)).getD (d :: t).length := by
  simp only [position, h, List.length_cons, Bool.false_eq_true, if_false]
  rw [getD_map_succ]
  omega

theorem position_take_all {p : Nat → Bool} : ∀ (l : List Nat) (n : Nat),
    n ≤ (position p l).getD l.length → ∀ b ∈ l.take n, p b = false := by
  intro l
  induction l with
  | nil => intro n _ b hb; simp at hb
  | cons a t ih =>
    intro n hn b hb
    cases n with
    | zero => simp at hb
    | succ k =>
      simp only [position, List.length_cons] at hn
      by_cases hpa : p a = true
      · rw [if_pos hpa] at hn
        simp at hn
      · rw [if_neg (by simp [hpa])] at hn
        rw [getD_map_succ] at hn
        simp only [List.take_succ_cons, List.mem_cons] at hb
        rcases hb with rfl | hb
        · simpa using hpa
        · exact ih k (by omega) b hb

theorem foldl_digits_lt : ∀ (l : List Nat) (acc k : Nat), acc < 10 ^ k →
    (∀ b ∈ l, isDigitByte b = true) →
    l.foldl (fun acc v => acc * 10 + (v - 48)) acc < 10 ^ (k + l.length) := by
  intro l
  induction l with
  | nil => intro acc k h _; simpa using h
  | cons b t ih =>
    intro acc k h hd
    simp only [List.foldl_cons, List.length_cons]
    have hb : b ≤ 57 := by
      have := hd b (by simp)
      simp [isDigitByte] at this
      omega
    have h1 : (acc + 1) * 10 ≤ 10 ^ k * 10 := Nat.mul_le_mul_right 10 h
    have h2 : acc * 10 + (b - 48) < 10 ^ (k + 1) := by
      rw [pow_succ]
      omega
    have h3 := ih (acc * 10 + (b - 48)) (k + 1) h2
      (fun x hx => hd x (by simp [hx]))
    rw [show k + 1 + t.length = k + (t.length + 1) from by omega] at h3
    exact h3

theorem digitsVal_lt {l : List Nat} (hd : ∀ b ∈ l, isDigitByte b = true) :
    digitsVal l < 10 ^ l.length := by
  cases l with
  | nil => simp [digitsVal]
  | cons b t =>
    have hb : 48 ≤ b ∧ b ≤ 57 := by
      have := hd b (by simp)
      simpa [isDigitByte] using this
    have h0 : b - 48 < 10 ^ 1 := by omega
    have h1 := foldl_digits_lt t (b - 48) 1 h0 (fun x hx => hd x (by simp [hx]))
    simpa [digitsVal, show 1 + t.length = t.length + 1 from by omega] using h1

theorem readNumber_digits {l : List Nat} (h1 : l ≠ []) (h9 : l.length ≤ 9)
    (hd : ∀ b ∈ l, isDigitByte b = true) : readNumber l = .ok (digitsVal l) := by
  unfold readNumber
  rw [if_neg (by
    simp only [not_or, not_lt]
    exact ⟨fun h0 => h1 (List.length_eq_zero.mp h0), h9⟩)]
  rw [show l.find? (fun b => ! isDigitByte b) = none from
    List.find?_eq_none.mpr (fun x hx => by simp [hd x hx])]

/-- Processing of a well-formed `HHMMSS` prefix by `parse_time_partial`:
the parser always reaches the fraction decision on the remainder. -/
theorem parseTimePartial_hms (h m s : Nat) (rest : List Nat)
    (hh : h ≤ 99) (hm : m ≤ 99) (hs : s ≤ 99) :
    parseTimePartial (digit2 h ++ (digit2 m ++ (digit2 s ++ rest))) =
      (if 1 < rest.length ∧ rest.headD 0 = 46 then do
        let buf4 := rest.drop 1
        let mm := (position (fun b => ! isDigitByte b) buf4).getD buf4.length
        let n := min 6 mm
        let fraction ← readNumber (buf4.take n)
        let t ← DicomTime.from_hmsf h m s fraction n
        (.ok (t, buf4.drop n) : Except ParseError (DicomTime × List Nat))
      else do
        let t ← DicomTime.from_hms h m s
        .ok (t, rest)) := by
  unfold parseTimePartial
  simp only [List.take_left' (digit2_len h), List.take_left' (digit2_len m),
    List.take_left' (digit2_len s), List.drop_left' (digit2_len h),
    List.drop_left' (digit2_len m), List.drop_left' (digit2_len s),
    readNumber_digit2 hh, readNumber_digit2 hm, readNumber_digit2 hs,
    except_bind_ok, List.length_append, digit2_len]
  rw [if_neg (by omega), if_neg (by omega), if_neg (by omega)]

/-- Claim C3 (amended): after `parse_time_partial` has read hour, minute and
second, the fraction branch requires at least TWO remaining bytes with the
first equal to `'.'` (source condition `buf.len() > 1 && buf[0] == b'.'`);
when additionally the byte after the `'.'` is a digit, it reads up to 6
fraction digits and returns `HourMinuteSecondFraction(h,m,s,frac,fp)` with
`fp` the number of digits actually read.  In every other case — including
an input ending in a bare `'.'` — it returns `HourMinuteSecond(h,m,s)`
with ALL remaining bytes (the `'.'` included) as the tail. -/
theorem claim_c3_time_partial_fraction (h m s : Nat) (rest : List Nat)
    (hh : h ≤ 23) (hm : m ≤ 59) (hs : s ≤ 60) :
    (∀ d r2, rest = 46 :: d :: r2 → isDigitByte d = true →
      parseTimePartial (digit2 h ++ (digit2 m ++ (digit2 s ++ rest))) =
        .ok (.fraction h m s
          (digitsVal ((d :: r2).take (min 6
            ((position (fun b => ! isDigitByte b) (d :: r2)).getD (d :: r2).length))))
          (min 6
            ((position (fun b => ! isDigitByte b) (d :: r2)).getD (d :: r2).length)),
          (d :: r2).drop (min 6
            ((position (fun b => ! isDigitByte b) (d :: r2)).getD (d :: r2).length)))) ∧
    (¬ (1 < rest.length ∧ rest.headD 0 = 46) →
      parseTimePartial (digit2 h ++ (digit2 m ++ (digit2 s ++ rest))) =
        .ok (.second h m s, rest)) := by
  constructor
  · intro d r2 hrest hd
    subst hrest
    rw [parseTimePartial_hms h m s _ (by omega) (by omega) (by omega)]
    rw [if_pos (⟨by simp only [List.length_cons]; omega, rfl⟩ :
      1 < ((46 : Nat) :: d :: r2).length ∧ ((46 : Nat) :: d :: r2).headD 0 = 46)]
    simp only [show ((46 : Nat) :: d :: r2).drop 1 = d :: r2 from rfl]
    have hd' : (fun b => ! isDigitByte b) d = false := by simp [hd]
    have hpos1 : 1 ≤ (position (fun b => ! isDigitByte b) (d :: r2)).getD (d :: r2).length :=
      position_head_false r2 hd'
    have hple := position_getD_le (fun b => ! isDigitByte b) (d :: r2)
    have hdigits : ∀ b ∈ (d :: r2).take (min 6
        ((position (fun b => ! isDigitByte b) (d :: r2)).getD (d :: r2).length)),
        isDigitByte b = true := by
      intro b hb
      have := position_take_all (d :: r2) _ (Nat.min_le_right 6 _) b hb
      simpa using this
    generalize hgen : (position (fun b => ! isDigitByte b) (d :: r2)).getD (d :: r2).length
      = mm at hpos1 hple hdigits ⊢
    have hn1 : 1 ≤ min 6 mm := by omega
    have hn6 : min 6 mm ≤ 6 := by omega
    have hnlen : min 6 mm ≤ (d :: r2).length := by
      simp only [List.length_cons] at hple ⊢
      omega
    have htlen : ((d :: r2).take (min 6 mm)).length = min 6 mm := by
      rw [List.length_take]
      omega
    have hne : (d :: r2).take (min 6 mm) ≠ [] := by
      intro hcon
      have := congrArg List.length hcon
      rw [htlen] at this
      simp at this
      omega
    rw [readNumber_digits hne (by omega) hdigits, except_bind_ok]
    have hflt : digitsVal ((d :: r2).take (min 6 mm)) < 10 ^ min 6 mm := by
      have := digitsVal_lt hdigits
      rwa [htlen] at this
    rw [show DicomTime.from_hmsf h m s (digitsVal ((d :: r2).take (min 6 mm)))
        (min 6 mm) =
        .ok (.fraction h m s (digitsVal ((d :: r2).take (min 6 mm))) (min 6 mm))
        from ?_]
    · rw [except_bind_ok]
    · unfold DicomTime.from_hmsf
      rw [if_pos (by simp only [checkComponent, decide_eq_true_eq]; omega),
        if_pos (by simp only [checkComponent, decide_eq_true_eq]; omega),
        if_pos (by simp only [checkComponent, decide_eq_true_eq]; omega),
        if_pos ⟨hn1, hn6, hflt⟩]
  · intro hcond
    rw [parseTimePartial_hms h m s _ (by omega) (by omega) (by omega)]
    rw [if_neg hcond]
    rw [show DicomTime.from_hms h m s = .ok (.second h m s) from ?_]
    · rw [except_bind_ok]
    · unfold DicomTime.from_hms
      rw [if_pos (by simp only [checkComponent, decide_eq_true_eq]; omega),
        if_pos (by simp only [checkComponent, decide_eq_true_eq]; omega),
        if_pos (by simp only [checkComponent, decide_eq_true_eq]; omega)]

/-- Counterexample to claim C3 as stated: on `b"075501."` exactly one byte
remains after the seconds and it is `'.'`, yet `parse_time_partial` does
NOT take the fraction branch: it returns the fraction-less
`HourMinuteSecond(7,55,1)` with the `'.'` still in the tail. -/
theorem claim_c3_counterexample :
    parseTimePartial [48, 55, 53, 53, 48, 49, 46] =
      .ok (.second 7 55 1, [46]) ∧
    (DicomTime.second 7 55 1).isFraction = false := ⟨rfl, rfl⟩

/-- Witness for (amended) claim C3 at the spec's boundary example
`parse_time_partial(b"075501.5") = (Fraction(7,55,1,5,fp=1), empty)`. -/
theorem claim_c3_witness :
    parseTimePartial [48, 55, 53, 53, 48, 49, 46, 53] =
      .ok (.fraction 7 55 1 5 1, []) := by
  have hcl := (claim_c3_time_partial_fraction 7 55 1 [46, 53]
    (by decide) (by decide) (by decide)).1 53 [] rfl (by decide)
  exact hcl

/-- Claim C5: for an input whose first six bytes encode a valid HHMMSS,
whose seventh byte is `'.'` and which continues with at least one ASCII
digit, `parse_time` reads at most six fraction digits after the `'.'`,
right-pads the `k` digits read to microseconds as `frac * 10^(6-k)`, and
leaves every further byte — digits beyond the sixth included — unconsumed
in the returned tail. -/
theorem claim_c5_time_fraction_padding (h m s d : Nat) (r2 : List Nat)
    (hh : h ≤ 23) (hm : m ≤ 59) (hs : s ≤ 60) (hd : isDigitByte d = true) :
    parseTime (digit2 h ++ (digit2 m ++ (digit2 s ++ (46 :: d :: r2)))) =
      .ok (⟨h, m, s,
        digitsVal ((d :: r2).take (min 6
          ((position (fun b => ! isDigitByte b) (d :: r2)).getD (d :: r2).length))) *
          10 ^ (6 - min 6
          ((position (fun b => ! isDigitByte b) (d :: r2)).getD (d :: r2).length))⟩,
        (d :: r2).drop (min 6
          ((position (fun b => ! isDigitByte b) (d :: r2)).getD (d :: r2).length))) := by
  have e1 : (digit2 h ++ (digit2 m ++ (digit2 s ++ (46 :: d :: r2)))).drop 2 =
      digit2 m ++ (digit2 s ++ (46 :: d :: r2)) := List.drop_left' (digit2_len h)
  have e2 : (digit2 m ++ (digit2 s ++ (46 :: d :: r2))).drop 2 =
      digit2 s ++ (46 :: d :: r2) := List.drop_left' (digit2_len m)
  have e3 : (digit2 s ++ (46 :: d :: r2)).drop 2 = 46 :: d :: r2 :=
    List.drop_left' (digit2_len s)
  have hdrop4 : (digit2 h ++ (digit2 m ++ (digit2 s ++ (46 :: d :: r2)))).drop 4 =
      digit2 s ++ (46 :: d :: r2) := by
    rw [show (4 : Nat) = 2 + 2 from rfl, ← List.drop_drop, e1, e2]
  have hdrop6 : (digit2 h ++ (digit2 m ++ (digit2 s ++ (46 :: d :: r2)))).drop 6 =
      46 :: d :: r2 := by
    rw [show (6 : Nat) = 4 + 2 from rfl, ← List.drop_drop, hdrop4, e3]
  have s24 : slice (digit2 h ++ (digit2 m ++ (digit2 s ++ (46 :: d :: r2)))) 2 4 =
      digit2 m := by
    simp only [slice, e1]
    rw [show (4 : Nat) - 2 = 2 from rfl, List.take_left' (digit2_len m)]
  have s46 : slice (digit2 h ++ (digit2 m ++ (digit2 s ++ (46 :: d :: r2)))) 4 6 =
      digit2 s := by
    simp only [slice, hdrop4]
    rw [show (6 : Nat) - 4 = 2 from rfl, List.take_left' (digit2_len s)]
  have hch : checkComponent .hour h = true := by
    simp only [checkComponent, decide_eq_true_eq]; omega
  have hcm : checkComponent .minute m = true := by
    simp only [checkComponent, decide_eq_true_eq]; omega
  have hcs : checkComponent .second s = true := by
    simp only [checkComponent, decide_eq_true_eq]; omega
  unfold parseTime
  simp only [List.length_append, digit2_len, List.length_cons]
  rw [if_neg (by omega), if_neg (by omega), if_neg (by omega), if_pos (by omega)]
  rw [List.take_left' (digit2_len h), readNumber_digit2 (show h ≤ 99 by omega)]
  simp only [except_bind_ok]
  rw [if_pos hch, s24, readNumber_digit2 (show m ≤ 99 by omega)]
  simp only [except_bind_ok]
  rw [if_pos hcm, s46, readNumber_digit2 (show s ≤ 99 by omega)]
  simp only [except_bind_ok]
  rw [if_pos hcs, hdrop6]
  simp only [List.headD_cons]
  rw [if_neg (by simp)]
  simp only [show ((46 : Nat) :: d :: r2).drop 1 = d :: r2 from rfl]
  have hd' : (fun b => ! isDigitByte b) d = false := by simp [hd]
  have hpos1 : 1 ≤ (position (fun b => ! isDigitByte b) (d :: r2)).getD (d :: r2).length :=
    position_head_false r2 hd'
  have hple := position_getD_le (fun b => ! isDigitByte b) (d :: r2)
  have hdigits : ∀ b ∈ (d :: r2).take (min 6
      ((position (fun b => ! isDigitByte b) (d :: r2)).getD (d :: r2).length)),
      isDigitByte b = true := by
    intro b hb
    have := position_take_all (d :: r2) _ (Nat.min_le_right 6 _) b hb
    simpa using this
  generalize hgen : (position (fun b => ! isDigitByte b) (d :: r2)).getD (d :: r2).length
    = mm at hpos1 hple hdigits ⊢
  have hn1 : 1 ≤ min 6 mm := by omega
  have hn6 : min 6 mm ≤ 6 := by omega
  have hnlen : min 6 mm ≤ (d :: r2).length := by
    simp only [List.length_cons] at hple ⊢
    omega
  have htlen : ((d :: r2).take (min 6 mm)).length = min 6 mm := by
    rw [List.length_take]
    omega
  have hne : (d :: r2).take (min 6 mm) ≠ [] := by
    intro hcon
    have := congrArg List.length hcon
    rw [htlen] at this
    simp at this
    omega
  rw [readNumber_digits hne (by omega) hdigits]
  simp only [except_bind_ok, padTo6]
  have hlt : digitsVal ((d :: r2).take (min 6 mm)) < 10 ^ min 6 mm := by
    have := digitsVal_lt hdigits
    rwa [htlen] at this
  have hpadlt : digitsVal ((d :: r2).take (min 6 mm)) * 10 ^ (6 - min 6 mm) < 10 ^ 6 := by
    have hp : 0 < 10 ^ (6 - min 6 mm) := by positivity
    calc digitsVal ((d :: r2).take (min 6 mm)) * 10 ^ (6 - min 6 mm)
        < 10 ^ min 6 mm * 10 ^ (6 - min 6 mm) :=
          Nat.mul_lt_mul_of_lt_of_le hlt (Nat.le_refl _) hp
      _ = 10 ^ 6 := by rw [← pow_add]; congr 1; omega
  have hpad999 : digitsVal ((d :: r2).take (min 6 mm)) * 10 ^ (6 - min 6 mm) ≤ 999999 := by
    norm_num at hpadlt
    omega
  rw [if_pos (show checkComponent .fraction
      (digitsVal ((d :: r2).take (min 6 mm)) * 10 ^ (6 - min 6 mm)) = true by
    simp only [checkComponent, decide_eq_true_eq]; exact hpad999)]
  rw [show NaiveTime.from_hms_micro_opt h m s
      (digitsVal ((d :: r2).take (min 6 mm)) * 10 ^ (6 - min 6 mm)) =
      some ⟨h, m, s, digitsVal ((d :: r2).take (min 6 mm)) * 10 ^ (6 - min 6 mm)⟩ from by
    unfold NaiveTime.from_hms_micro_opt
    rw [if_pos ⟨hh, hm, hs, hpad999⟩]]
  simp only [List.length_cons] at hgen
  rw [hgen]

/-- Witness for claim C5 at the spec's boundary inputs: six fraction digits
are kept plus a seventh left in the tail, and one digit is right-padded to
100000 microseconds. -/
theorem claim_c5_witness :
    parseTime [50, 51, 53, 57, 53, 57, 46, 49, 50, 51, 52, 53, 54, 55] =
      .ok (⟨23, 59, 59, 123456⟩, [55]) ∧
    parseTime [49, 48, 48, 48, 48, 48, 46, 49] =
      .ok (⟨10, 0, 0, 100000⟩, []) := by
  constructor
  · exact claim_c5_time_fraction_padding 23 59 59 49 [50, 51, 52, 53, 54, 55]
      (by decide) (by decide) (by decide) (by decide)
  · exact claim_c5_time_fraction_padding 10 0 0 49 []
      (by decide) (by decide) (by decide) (by decide)

/-- Claim C6: in `parse_datetime_partial` a failure of `parse_time_partial`
on the bytes after the partial date is swallowed — the result carries no
time and those bytes are restored for timezone parsing — and a parsed
timezone offset magnitude is validated against 24*3600 seconds
(`InvalidComponent(UTCOffset)` when out of range). -/
theorem claim_c6_datetime_partial_swallow (buf : List Nat) (off : Int)
    (d : DicomDate) (rest : List Nat) (e : ParseError)
    (h1 : parseDatePartial buf = .ok (d, rest))
    (h2 : parseTimePartial rest = .error e) :
    (parseDatetimePartial buf off =
      (parseTzPartial rest off).bind (fun o => .ok ⟨d, none, o⟩)) ∧
    (∀ th tm extra, rest = 45 :: (digit2 th ++ (digit2 tm ++ extra)) →
      th ≤ 99 → tm ≤ 99 →
      (((th * 60 + tm) * 60 < 86400 →
        parseTzPartial rest off = .ok (-(((th * 60 + tm) * 60 : Nat) : Int))) ∧
      (86400 ≤ (th * 60 + tm) * 60 →
        parseTzPartial rest off =
          .error (.invalidComponent .utcOffset ((th * 60 + tm) * 60))))) := by
  constructor
  · unfold parseDatetimePartial
    rw [h1]
    simp only [except_bind_ok]
    rw [h2]
    rfl
  · intro th tm extra hrest hth htm
    subst hrest
    have st : slice (digit2 th ++ (digit2 tm ++ extra)) 2 4 = digit2 tm := by
      simp only [slice]
      rw [List.drop_left' (digit2_len th), show (4 : Nat) - 2 = 2 from rfl,
        List.take_left' (digit2_len tm)]
    unfold parseTzPartial
    rw [if_neg (by simp), if_pos (by simp [digit2_len]; omega)]
    simp only [List.headD_cons,
      show ((45 : Nat) :: (digit2 th ++ (digit2 tm ++ extra))).drop 1 =
        digit2 th ++ (digit2 tm ++ extra) from rfl]
    rw [List.take_left' (digit2_len th), readNumber_digit2 hth]
    simp only [except_bind_ok]
    rw [st, readNumber_digit2 htm]
    simp only [except_bind_ok]
    constructor
    · intro hlt
      rw [if_pos (show checkComponent .utcOffset ((th * 60 + tm) * 60) = true by
        simp only [checkComponent, decide_eq_true_eq]; exact hlt)]
      show fixedWest ((th * 60 + tm) * 60) =
        .ok (-(((th * 60 + tm) * 60 : Nat) : Int))
      unfold fixedWest
      rw [if_pos hlt]
      rfl
    · intro hge
      rw [if_neg (show ¬ checkComponent .utcOffset ((th * 60 + tm) * 60) = true by
        simp only [checkComponent, decide_eq_true_eq]; omega)]

/-- Witness for claim C6 at the spec's boundary example
`parse_datetime_partial(b"2017-0135", 0)`: the time parse on `b"-0135"`
fails, is swallowed, and the bytes are reused as the timezone suffix,
yielding date `Year(2017)`, no time, and offset `-(1*3600 + 35*60)`. -/
theorem claim_c6_witness :
    parseDatetimePartial [50, 48, 49, 55, 45, 48, 49, 51, 53] 0 =
      .ok ⟨.year 2017, none, -5700⟩ := by
  have h := claim_c6_datetime_partial_swallow [50, 48, 49, 55, 45, 48, 49, 51, 53] 0
    (.year 2017) [45, 48, 49, 51, 53] (.invalidNumberToken 45) rfl rfl
  obtain ⟨hmain, hval⟩ := h
  have hz := (hval 1 35 [] rfl (by decide) (by decide)).1 (by decide)
  rw [hmain, hz]
  rfl

/-- Claim C8 (amended): in `parse_datetime`, when bytes remain after the
strict time, at least 5 bytes of timezone suffix are required (a nonempty
remainder of length 1 to 4 fails with `UnexpectedEndOfInput`); when at
least 5 remain, the 2+2 offset digits are read FIRST, so a digit error
surfaces before the sign is inspected; with valid digits, a sign byte
other than `'+'`/`'-'` fails with `InvalidTimeZoneSign`, and a valid sign
yields the signed offset `±(HH*3600 + MM*60)` seconds. -/
theorem claim_c8_datetime_timezone (buf : List Nat) (off : Int) (d : NaiveDate)
    (t : NaiveTime) (rest : List Nat)
    (h1 : parseDate buf = .ok d)
    (h2 : parseTime (buf.drop 8) = .ok (t, rest)) :
    (1 ≤ rest.length → rest.length ≤ 4 →
      parseDatetime buf off = .error .unexpectedEndOfElement) ∧
    (∀ c th tm extra, rest = c :: (digit2 th ++ (digit2 tm ++ extra)) →
      th ≤ 99 → tm ≤ 99 →
      ((c = 43 → (th * 60 + tm) * 60 < 86400 →
        parseDatetime buf off = .ok ⟨d, t, (((th * 60 + tm) * 60 : Nat) : Int)⟩) ∧
      (c = 45 → (th * 60 + tm) * 60 < 86400 →
        parseDatetime buf off = .ok ⟨d, t, -(((th * 60 + tm) * 60 : Nat) : Int)⟩) ∧
      (c ≠ 43 → c ≠ 45 →
        parseDatetime buf off = .error (.invalidTimeZoneSignToken c)))) := by
  constructor
  · intro hlo hhi
    unfold parseDatetime
    rw [h1]
    simp only [except_bind_ok]
    rw [h2]
    simp only [except_bind_ok]
    rw [if_neg (by omega), if_neg (by omega)]
  · intro c th tm extra hrest hth htm
    subst hrest
    have st : slice (digit2 th ++ (digit2 tm ++ extra)) 2 4 = digit2 tm := by
      simp only [slice]
      rw [List.drop_left' (digit2_len th), show (4 : Nat) - 2 = 2 from rfl,
        List.take_left' (digit2_len tm)]
    unfold parseDatetime
    rw [h1]
    simp only [except_bind_ok]
    rw [h2]
    simp only [except_bind_ok]
    rw [if_neg (by simp), if_pos (by simp [digit2_len]; omega)]
    simp only [List.headD_cons,
      show (c :: (digit2 th ++ (digit2 tm ++ extra))).drop 1 =
        digit2 th ++ (digit2 tm ++ extra) from rfl]
    rw [List.take_left' (digit2_len th), readNumber_digit2 hth]
    simp only [except_bind_ok]
    rw [st, readNumber_digit2 htm]
    simp only [except_bind_ok]
    refine ⟨?_, ?_, ?_⟩
    · intro hc hlt
      subst hc
      show (fixedEast ((th * 60 + tm) * 60) >>= fun offset =>
        (Except.ok ⟨d, t, offset⟩ : Except ParseError StrictDateTime)) = _
      unfold fixedEast
      rw [if_pos hlt]
      rfl
    · intro hc hlt
      subst hc
      show (fixedWest ((th * 60 + tm) * 60) >>= fun offset =>
        (Except.ok ⟨d, t, offset⟩ : Except ParseError StrictDateTime)) = _
      unfold fixedWest
      rw [if_pos hlt]
      rfl
    · intro hc43 hc45
      split <;> simp_all

/-- Counterexample to claim C8 as stated: on
`b"20171130101010.204*a123"` the timezone remainder `"*a123"` has an
invalid sign byte `'*'`, but the parser fails with
`InvalidNumberToken('a')` — the offset digits are read before the sign is
checked — not with `InvalidTimeZoneSign`. -/
theorem claim_c8_counterexample :
    parseDatetime [50, 48, 49, 55, 49, 49, 51, 48, 49, 48, 49, 48, 49, 48,
      46, 50, 48, 52, 42, 97, 49, 50, 51] 0 =
      .error (.invalidNumberToken 97) ∧
    ParseError.invalidNumberToken 97 ≠ ParseError.invalidTimeZoneSignToken 42 :=
  ⟨rfl, by decide⟩

/-- Witness for (amended) claim C8: the spec's error scenario
`parse_datetime(b"20171130101010.204+011", 0) = UnexpectedEndOfInput` (a
4-byte timezone remainder) and its boundary scenario 9, where `-1001`
yields offset `-(10*3600 + 60)` seconds. -/
theorem claim_c8_witness :
    parseDatetime [50, 48, 49, 55, 49, 49, 51, 48, 49, 48, 49, 48, 49, 48,
      46, 50, 48, 52, 43, 48, 49, 49] 0 = .error .unexpectedEndOfElement ∧
    parseDatetime [50, 48, 49, 55, 49, 49, 51, 48, 49, 48, 49, 48, 49, 48,
      46, 53, 54, 52, 50, 48, 52, 45, 49, 48, 48, 49] 0 =
      .ok ⟨⟨2017, 11, 30⟩, ⟨10, 10, 10, 564204⟩, -36060⟩ := by
  constructor
  · exact (claim_c8_datetime_timezone
      [50, 48, 49, 55, 49, 49, 51, 48, 49, 48, 49, 48, 49, 48, 46, 50, 48, 52,
        43, 48, 49, 49] 0 ⟨2017, 11, 30⟩ ⟨10, 10, 10, 204000⟩
      [43, 48, 49, 49] rfl rfl).1 (by decide) (by decide)
  · exact ((claim_c8_datetime_timezone
      [50, 48, 49, 55, 49, 49, 51, 48, 49, 48, 49, 48, 49, 48, 46, 53, 54, 52,
        50, 48, 52, 45, 49, 48, 48, 49] 0 ⟨2017, 11, 30⟩ ⟨10, 10, 10, 564204⟩
      [45, 49, 48, 48, 49] rfl rfl).2 45 10 1 [] rfl (by decide) (by decide)).2.1
      rfl (by decide)

/-! ## Lemmas about `decode_rle_segment` -/

theorem fillN_length (cnt : Nat) : ∀ (buf : List Nat) (pos d : Nat),
    (fillN buf pos cnt d).length = buf.length := by
  induction cnt with
  | zero => intro buf pos d; rfl
  | succ c ih =>
    intro buf pos d
    show (fillN (buf.set pos d) (pos + 1) c d).length = buf.length
    rw [ih, List.length_set]

theorem setSlice_length (vals : List Nat) : ∀ (buf : List Nat) (pos : Nat),
    (setSlice buf pos vals).length = buf.length := by
  induction vals with
  | nil => intro buf pos; rfl
  | cons v rest ih =>
    intro buf pos
    show (setSlice (buf.set pos v) (pos + 1) rest).length = buf.length
    rw [ih, List.length_set]

theorem decodeSegment_done (input buf : List Nat) (pos : Nat)
    (h : ¬ pos < buf.length) : decodeSegment input buf pos = .ok (buf, pos) := by
  rw [decodeSegment.eq_def, if_neg h]

theorem decodeSegment_nil (buf : List Nat) (pos : Nat) (h : pos < buf.length) :
    decodeSegment [] buf pos = .error .eof := by
  rw [decodeSegment.eq_def, if_pos h]

theorem decodeSegment_run_eof (b : Nat) (buf : List Nat) (pos : Nat)
    (hlt : pos < buf.length) (hb : 129 ≤ b) :
    decodeSegment [b] buf pos = .error .eof := by
  rw [decodeSegment.eq_def, if_pos hlt]
  try dsimp only
  rw [if_pos hb]

theorem decodeSegment_run (b d : Nat) (rest buf : List Nat) (pos : Nat)
    (hlt : pos < buf.length) (hb : 129 ≤ b)
    (hle : pos + (257 - b) ≤ buf.length) :
    decodeSegment (b :: d :: rest) buf pos =
      decodeSegment rest (fillN buf pos (257 - b) d) (pos + (257 - b)) := by
  rw [decodeSegment.eq_def, if_pos hlt]
  try dsimp only
  rw [if_pos hb]
  try dsimp only
  rw [if_pos hle]

theorem decodeSegment_run_panic (b d : Nat) (rest buf : List Nat) (pos : Nat)
    (hlt : pos < buf.length) (hb : 129 ≤ b)
    (hgt : buf.length < pos + (257 - b)) :
    decodeSegment (b :: d :: rest) buf pos = .error .panicked := by
  rw [decodeSegment.eq_def, if_pos hlt]
  try dsimp only
  rw [if_pos hb]
  try dsimp only
  rw [if_neg (by omega)]

theorem decodeSegment_lit (b : Nat) (rest buf : List Nat) (pos : Nat)
    (hlt : pos < buf.length) (hb : b ≤ 127)
    (hle : pos + (b + 1) ≤ buf.length) (hr : b + 1 ≤ rest.length) :
    decodeSegment (b :: rest) buf pos =
      decodeSegment (rest.drop (b + 1)) (setSlice buf pos (rest.take (b + 1)))
        (pos + (b + 1)) := by
  rw [decodeSegment.eq_def, if_pos hlt]
  try dsimp only
  rw [if_neg (by omega), if_pos hb, if_pos hle, if_pos hr]

theorem decodeSegment_lit_eof (b : Nat) (rest buf : List Nat) (pos : Nat)
    (hlt : pos < buf.length) (hb : b ≤ 127)
    (hle : pos + (b + 1) ≤ buf.length) (hr : ¬ b + 1 ≤ rest.length) :
    decodeSegment (b :: rest) buf pos = .error .eof := by
  rw [decodeSegment.eq_def, if_pos hlt]
  try dsimp only
  rw [if_neg (by omega), if_pos hb, if_pos hle, if_neg hr]

theorem decodeSegment_lit_panic (b : Nat) (rest buf : List Nat) (pos : Nat)
    (hlt : pos < buf.length) (hb : b ≤ 127)
    (hgt : buf.length < pos + (b + 1)) :
    decodeSegment (b :: rest) buf pos = .error .panicked := by
  rw [decodeSegment.eq_def, if_pos hlt]
  try dsimp only
  rw [if_neg (by omega), if_pos hb, if_neg (by omega)]

theorem decodeSegment_noop (b : Nat) (rest buf : List Nat) (pos : Nat)
    (hlt : pos < buf.length) (hb1 : ¬ 129 ≤ b) (hb2 : ¬ b ≤ 127) :
    decodeSegment (b :: rest) buf pos = decodeSegment rest buf pos := by
  rw [decodeSegment.eq_def, if_pos hlt]
  try dsimp only
  rw [if_neg hb1, if_neg hb2]

/-- The success invariant of `decode_rle_segment`: starting inside the
buffer, a successful decode ends exactly at the end of the buffer, and the
buffer length is unchanged. -/
theorem decodeSegment_ok_spec : ∀ (input buf : List Nat) (pos : Nat),
    pos ≤ buf.length → ∀ res, decodeSegment input buf pos = .ok res →
    res.2 = buf.length ∧ res.1.length = buf.length := by
  intro input buf pos
  induction input, buf, pos using decodeSegment.induct with
  | case1 buf pos hlt =>
    intro hpos res h
    rw [decodeSegment_nil buf pos hlt] at h
    simp at h
  | case2 buf pos hlt b hb =>
    intro hpos res h
    rw [decodeSegment_run_eof b buf pos hlt hb] at h
    simp at h
  | case3 buf pos hlt b hb d rest hle ih =>
    intro hpos res h
    rw [decodeSegment_run b d rest buf pos hlt hb hle] at h
    have := ih (by rw [fillN_length]; omega) res h
    rwa [fillN_length] at this
  | case4 buf pos hlt b hb d rest hgt =>
    intro hpos res h
    rw [decodeSegment_run_panic b d rest buf pos hlt hb (by omega)] at h
    simp at h
  | case5 buf pos hlt b rest hb1 hb2 hle hr ih =>
    intro hpos res h
    rw [decodeSegment_lit b rest buf pos hlt hb2 hle hr] at h
    have := ih (by rw [setSlice_length]; omega) res h
    rwa [setSlice_length] at this
  | case6 buf pos hlt b rest hb1 hb2 hle hr =>
    intro hpos res h
    rw [decodeSegment_lit_eof b rest buf pos hlt hb2 hle hr] at h
    simp at h
  | case7 buf pos hlt b rest hb1 hb2 hgt =>
    intro hpos res h
    rw [decodeSegment_lit_panic b rest buf pos hlt hb2 (by omega)] at h
    simp at h
  | case8 buf pos hlt b rest hb1 hb2 ih =>
    intro hpos res h
    rw [decodeSegment_noop b rest buf pos hlt hb1 hb2] at h
    exact ih hpos res h
  | case9 input buf pos hnlt =>
    intro hpos res h
    rw [decodeSegment_done input buf pos hnlt] at h
    simp only [Except.ok.injEq] at h
    subst h
    constructor
    · omega
    · rfl

/-- Claim C10: whenever `decode_rle_segment` returns `Ok(n)`, `n` equals
the target buffer length exactly, and the buffer length is unchanged —
hence the `assert_eq!(decode_length, decoded_segment.len())` performed by
the adapter after each segment decode holds on every successful decode. -/
theorem claim_c10_segment_decode_length (input buf : List Nat)
    (res : List Nat × Nat) (h : decodeSegment input buf 0 = .ok res) :
    res.2 = buf.length ∧ res.1.length = buf.length :=
  decodeSegment_ok_spec input buf 0 (Nat.zero_le _) res h

/-- Witness for claim C10: a one-byte literal segment decoded into a
one-byte buffer returns `Ok(1)` with the buffer filled. -/
theorem claim_c10_witness :
    decodeSegment [0, 170] [0] 0 = .ok ([170], 1) ∧
    (1 = ([0] : List Nat).length ∧ ([170] : List Nat).length = ([0] : List Nat).length) := by
  have hstep : decodeSegment [0, 170] [0] 0 = .ok ([170], 1) := by
    rw [decodeSegment_lit 0 [170] [0] 0 (by decide) (by decide) (by decide) (by decide)]
    rw [decodeSegment_done _ _ _ (by decide)]
    rfl
  exact ⟨hstep, claim_c10_segment_decode_length [0, 170] [0] ([170], 1) hstep⟩

/-- Claim C2 (amended): a run or literal whose output would exceed the
remaining space in the destination buffer makes `decode_rle_segment`
abort with an out-of-bounds panic (`panicked` in this model).  The source
has no `SegmentOverflow` error value: the overflow is not returned as an
error at all. -/
theorem claim_c2_overflow_panics (b d : Nat) (rest rest2 buf : List Nat)
    (pos : Nat) (hlt : pos < buf.length) :
    (129 ≤ b → buf.length < pos + (257 - b) →
      decodeSegment (b :: d :: rest) buf pos = .error .panicked) ∧
    (b ≤ 127 → buf.length < pos + (b + 1) →
      decodeSegment (b :: rest2) buf pos = .error .panicked) := by
  constructor
  · intro hb hgt
    exact decodeSegment_run_panic b d rest buf pos hlt hb hgt
  · intro hb hgt
    exact decodeSegment_lit_panic b rest2 buf pos hlt hb hgt

/-- Counterexample to claim C2 as stated: a two-copy run (`0xFE 0xAA`)
into a one-byte destination overflows; the decode aborts with a panic
(modelled `panicked`), which is distinct from any returned io error — in
particular there is no returned `SegmentOverflow` error in the code. -/
theorem claim_c2_counterexample :
    decodeSegment [254, 170] [0] 0 = .error SegErr.panicked ∧
    SegErr.panicked ≠ SegErr.eof := by
  refine ⟨?_, by decide⟩
  exact decodeSegment_run_panic 254 170 [] [0] 0 (by decide) (by decide) (by decide)

/-- Witness for (amended) claim C2: an overflowing two-byte literal into a
one-byte buffer panics. -/
theorem claim_c2_witness :
    decodeSegment [1, 5, 6] [0] 0 = .error .panicked :=
  (claim_c2_overflow_panics 1 0 [] [5, 6] [0] 0 (by decide)).2 (by decide) (by decide)

/-! ## Lemmas about the interleaving write loop -/

theorem emit_ok_length : ∀ (idxs seg dst dst2 : List Nat) (k : Nat),
    emit seg idxs dst k = .ok dst2 → dst2.length = dst.length := by
  intro idxs
  induction idxs with
  | nil =>
    intro seg dst dst2 k h
    simp only [emit, Except.ok.injEq] at h
    subst h
    rfl
  | cons idx rest ih =>
    intro seg dst dst2 k h
    simp only [emit] at h
    cases hk : seg[k]? with
    | none => simp [hk] at h
    | some v =>
      simp only [hk] at h
      split at h
      · have := ih seg (dst.set idx v) dst2 (k + 1) h
        rwa [List.length_set] at this
      · simp at h

theorem emit_untouched : ∀ (idxs seg dst dst2 : List Nat) (k : Nat),
    emit seg idxs dst k = .ok dst2 → ∀ j, j ∉ idxs → dst2[j]? = dst[j]? := by
  intro idxs
  induction idxs with
  | nil =>
    intro seg dst dst2 k h j _
    simp only [emit, Except.ok.injEq] at h
    subst h
    rfl
  | cons idx rest ih =>
    intro seg dst dst2 k h j hj
    simp only [emit] at h
    cases hk : seg[k]? with
    | none => simp [hk] at h
    | some v =>
      simp only [hk] at h
      split at h
      · have h2 := ih seg (dst.set idx v) dst2 (k + 1) h j
          (fun hm => hj (List.mem_cons_of_mem idx hm))
        rw [h2, List.getElem?_set_ne (fun hc => hj (by rw [← hc]; exact List.mem_cons_self idx rest))]
      · simp at h

theorem emit_written : ∀ (n : Nat) (seg dst dst2 : List Nat) (start k step : Nat),
    1 ≤ step → emit seg (List.range' start n step) dst k = .ok dst2 →
    ∀ t, t < n → dst2[start + step * t]? = seg[k + t]? := by
  intro n
  induction n with
  | zero => intro seg dst dst2 start k step _ _ t ht; omega
  | succ m ih =>
    intro seg dst dst2 start k step hstep h t ht
    rw [List.range'_succ] at h
    simp only [emit] at h
    cases hk : seg[k]? with
    | none => simp [hk] at h
    | some v =>
      simp only [hk] at h
      split at h
      · rename_i hidx
        cases t with
        | zero =>
          simp only [Nat.mul_zero, Nat.add_zero]
          have hnm : start ∉ List.range' (start + step) m step := by
            intro hmem
            rw [List.mem_range'] at hmem
            obtain ⟨u, hu, heq⟩ := hmem
            omega
          rw [emit_untouched (List.range' (start + step) m step) seg
            (dst.set start v) dst2 (k + 1) h start hnm]
          rw [List.getElem?_set_self hidx, hk]
        | succ u =>
          have h2 := ih seg (dst.set start v) dst2 (start + step) (k + 1) step hstep h
            u (by omega)
          rw [show start + step * (u + 1) = start + step + step * u from by ring,
            show k + (u + 1) = k + 1 + u from by ring]
          exact h2
      · simp at h

/-! ## Arithmetic of the interleaved index map -/

theorem numSteps_exact (step P r idx : Nat) (hstep : 0 < step) (hr : r < step)
    (hrP : r ≤ step * P) :
    numSteps idx (idx + (step * P - r)) step = P := by
  unfold numSteps
  rcases Nat.eq_zero_or_pos P with hP | hP
  · subst hP
    have h0 : r = 0 := by simpa using hrP
    subst h0
    have h1 : idx + (step * 0 - 0) - idx + step - 1 = step - 1 := by omega
    rw [h1]
    exact Nat.div_eq_of_lt (by omega)
  · have hsP : step ≤ step * P := Nat.le_mul_of_pos_right step hP
    have h1 : idx + (step * P - r) - idx + step - 1 = step * P + (step - 1 - r) := by
      omega
    rw [h1, Nat.mul_add_div hstep, Nat.div_eq_of_lt (by omega), Nat.add_zero]

theorem mul_add_decomp (Q : Nat) (hQ : 0 < Q) (a x a2 x2 : Nat)
    (hx : x < Q) (hx2 : x2 < Q) (h : Q * a + x = Q * a2 + x2) :
    a = a2 ∧ x = x2 := by
  have h1 : (Q * a + x) / Q = a := by
    rw [Nat.mul_add_div hQ, Nat.div_eq_of_lt hx, Nat.add_zero]
  have h2 : (Q * a2 + x2) / Q = a2 := by
    rw [Nat.mul_add_div hQ, Nat.div_eq_of_lt hx2, Nat.add_zero]
  have h3 : (Q * a + x) % Q = x := by
    rw [Nat.mul_add_mod, Nat.mod_eq_of_lt hx]
  have h4 : (Q * a2 + x2) % Q = x2 := by
    rw [Nat.mul_add_mod, Nat.mod_eq_of_lt hx2]
  constructor
  · rw [← h1, ← h2, h]
  · rw [← h3, ← h4, h]

/-- The within-frame residue `s * B + (B - b - 1)` of a sample/byte pair is
strictly below the per-pixel stride `B * S`. -/
theorem rOf_lt (s b S B : Nat) (hs : s < S) (hb : b < B) :
    s * B + (B - b - 1) < B * S := by
  have h1 : s * B ≤ (S - 1) * B := Nat.mul_le_mul_right B (by omega)
  have h2 : (S - 1) * B + B = S * B := by
    have hS : S - 1 + 1 = S := by omega
    calc (S - 1) * B + B = (S - 1 + 1) * B := by ring
      _ = S * B := by rw [hS]
  have h3 : B * S = S * B := Nat.mul_comm B S
  omega

/-! ## Per-segment processing lemmas -/

theorem decodedSegmentCore_length (frag offsets : List Nat) (nPix ii : Nat)
    (dec : List Nat) (h : decodedSegmentCore frag offsets nPix ii = .ok dec) :
    dec.length = nPix := by
  unfold decodedSegmentCore at h
  cases h1 : offsets[ii]? with
  | none => simp [h1, need] at h
  | some a1 =>
    simp only [h1, need, except_bind_ok] at h
    cases h2 : offsets[ii + 1]? with
    | none => simp [h2, need] at h
    | some a2 =>
      simp only [h2, need, except_bind_ok] at h
      by_cases h3 : a1 ≤ a2 ∧ a2 ≤ frag.length
      · rw [sliceOrPanic, if_pos h3] at h
        simp only [except_bind_ok] at h
        cases h4 : decodeSegment (slice frag a1 a2) (List.replicate nPix 0) 0 with
        | error e => cases e <;> simp [h4] at h
        | ok res =>
          obtain ⟨dec0, n⟩ := res
          simp only [h4] at h
          have hspec := decodeSegment_ok_spec _ _ _ (Nat.zero_le _) (dec0, n) h4
          simp only [List.length_replicate] at hspec
          split at h
          · simp only [Except.ok.injEq] at h
            subst h
            exact hspec.2
          · simp at h
      · rw [sliceOrPanic, if_neg h3] at h
        simp at h

theorem processSeg_ok (frag offsets : List Nat) (fs S B rows cols i : Nat)
    (dst dst2 : List Nat) (s b : Nat)
    (h : processSeg frag offsets fs S B rows cols i dst (s, b) = .ok dst2) :
    ∃ dec, decodedSegmentCore frag offsets (rows * cols) (s * B + b) = .ok dec ∧
      0 < B * S ∧
      emit dec (List.range' (fs * i + s * B + (B - b - 1))
        (numSteps (fs * i + s * B + (B - b - 1)) (fs * (i + 1)) (B * S)) (B * S))
        dst 0 = .ok dst2 := by
  unfold processSeg at h
  cases hd : decodedSegmentCore frag offsets (rows * cols) (s * B + b) with
  | error e => simp [hd] at h
  | ok dec =>
    simp only [hd, except_bind_ok] at h
    split at h
    · exact ⟨dec, rfl, by assumption, h⟩
    · simp at h

theorem processSeg_length (frag offsets : List Nat) (fs S B rows cols i : Nat)
    (dst dst2 : List Nat) (p : Nat × Nat)
    (h : processSeg frag offsets fs S B rows cols i dst p = .ok dst2) :
    dst2.length = dst.length := by
  obtain ⟨s, b⟩ := p
  obtain ⟨dec, _, _, hemit⟩ := processSeg_ok frag offsets fs S B rows cols i dst dst2 s b h
  exact emit_ok_length _ _ _ _ _ hemit

theorem processSeg_untouched (frag offsets : List Nat) (fs S B rows cols i : Nat)
    (dst dst2 : List Nat) (s b : Nat)
    (h : processSeg frag offsets fs S B rows cols i dst (s, b) = .ok dst2)
    (j : Nat) (hj : ∀ t, j ≠ fs * i + s * B + (B - b - 1) + (B * S) * t) :
    dst2[j]? = dst[j]? := by
  obtain ⟨dec, _, _, hemit⟩ := processSeg_ok frag offsets fs S B rows cols i dst dst2 s b h
  refine emit_untouched _ _ _ _ _ hemit j ?_
  intro hmem
  rw [List.mem_range'] at hmem
  obtain ⟨t, _, heq⟩ := hmem
  exact hj t heq

theorem processSeg_written (frag offsets : List Nat) (fs S B rows cols i : Nat)
    (dst dst2 : List Nat) (s b k : Nat)
    (hs : s < S) (hb : b < B) (hfs : fs = B * S * (rows * cols))
    (hk : k < rows * cols)
    (h : processSeg frag offsets fs S B rows cols i dst (s, b) = .ok dst2) :
    ∃ dec, decodedSegmentCore frag offsets (rows * cols) (s * B + b) = .ok dec ∧
      dst2[fs * i + s * B + (B - b - 1) + (B * S) * k]? = dec[k]? := by
  obtain ⟨dec, hdec, hstep, hemit⟩ :=
    processSeg_ok frag offsets fs S B rows cols i dst dst2 s b h
  refine ⟨dec, hdec, ?_⟩
  have hr : s * B + (B - b - 1) < B * S := rOf_lt s b S B hs hb
  have hnum : numSteps (fs * i + s * B + (B - b - 1)) (fs * (i + 1)) (B * S) =
      rows * cols := by
    have hle : s * B + (B - b - 1) ≤ B * S * (rows * cols) := by
      have h1 : B * S ≤ B * S * (rows * cols) :=
        Nat.le_mul_of_pos_right (B * S) (by omega)
      omega
    have hstop : fs * (i + 1) = (fs * i + s * B + (B - b - 1)) +
        ((B * S) * (rows * cols) - (s * B + (B - b - 1))) := by
      have h2 : fs * (i + 1) = fs * i + fs := by ring
      rw [h2, hfs]
      omega
    rw [hstop]
    exact numSteps_exact (B * S) (rows * cols) (s * B + (B - b - 1)) _ hstep hr hle
  rw [hnum] at hemit
  have hget := emit_written (rows * cols) dec dst dst2 _ 0 (B * S) hstep hemit k hk
  simpa using hget

/-! ## Frame-level fold lemmas -/

theorem mem_pairsSB {s b S B : Nat} : (s, b) ∈ pairsSB S B ↔ s < S ∧ b < B := by
  unfold pairsSB
  simp only [List.mem_flatMap, List.mem_map, List.mem_reverse, List.mem_range,
    Prod.mk.injEq]
  constructor
  · rintro ⟨a, ha, b2, hb2, rfl, rfl⟩
    exact ⟨ha, hb2⟩
  · rintro ⟨hs, hb⟩
    exact ⟨s, hs, b, hb, rfl, rfl⟩

theorem foldSeg_length (frag offsets : List Nat) (fs S B rows cols i : Nat) :
    ∀ (L : List (Nat × Nat)) (dst dst2 : List Nat),
    List.foldlM (processSeg frag offsets fs S B rows cols i) dst L = .ok dst2 →
    dst2.length = dst.length := by
  intro L
  induction L with
  | nil =>
    intro dst dst2 h
    simp only [List.foldlM_nil, except_pure_eq, Except.ok.injEq] at h
    subst h
    rfl
  | cons p rest ih =>
    intro dst dst2 h
    rw [List.foldlM_cons] at h
    cases h1 : processSeg frag offsets fs S B rows cols i dst p with
    | error e => simp [h1] at h
    | ok dst1 =>
      simp only [h1, except_bind_ok] at h
      rw [ih dst1 dst2 h, processSeg_length frag offsets fs S B rows cols i dst dst1 p h1]

theorem foldSeg_untouched (frag offsets : List Nat) (fs S B rows cols i : Nat) :
    ∀ (L : List (Nat × Nat)) (dst dst2 : List Nat),
    List.foldlM (processSeg frag offsets fs S B rows cols i) dst L = .ok dst2 →
    ∀ j, (∀ p ∈ L, ∀ t, j ≠ fs * i + p.1 * B + (B - p.2 - 1) + (B * S) * t) →
    dst2[j]? = dst[j]? := by
  intro L
  induction L with
  | nil =>
    intro dst dst2 h j _
    simp only [List.foldlM_nil, except_pure_eq, Except.ok.injEq] at h
    subst h
    rfl
  | cons p rest ih =>
    intro dst dst2 h j hj
    rw [List.foldlM_cons] at h
    cases h1 : processSeg frag offsets fs S B rows cols i dst p with
    | error e => simp [h1] at h
    | ok dst1 =>
      simp only [h1, except_bind_ok] at h
      rw [ih dst1 dst2 h j (fun q hq => hj q (List.mem_cons_of_mem p hq))]
      obtain ⟨s, b⟩ := p
      exact processSeg_untouched frag offsets fs S B rows cols i dst dst1 s b h1 j
        (hj (s, b) (List.mem_cons_self _ _))

theorem foldSeg_written (frag offsets : List Nat) (fs S B rows cols i s b k : Nat)
    (hs : s < S) (hb : b < B) (hfs : fs = B * S * (rows * cols))
    (hk : k < rows * cols) :
    ∀ (L : List (Nat × Nat)) (dst dst2 : List Nat),
    List.foldlM (processSeg frag offsets fs S B rows cols i) dst L = .ok dst2 →
    (∀ p ∈ L, p.1 < S ∧ p.2 < B) → (s, b) ∈ L →
    ∃ dec, decodedSegmentCore frag offsets (rows * cols) (s * B + b) = .ok dec ∧
      dst2[fs * i + s * B + (B - b - 1) + (B * S) * k]? = dec[k]? := by
  intro L
  induction L with
  | nil => intro dst dst2 _ _ hmem; simp at hmem
  | cons p rest ih =>
    intro dst dst2 h hbounds hmem
    rw [List.foldlM_cons] at h
    cases h1 : processSeg frag offsets fs S B rows cols i dst p with
    | error e => simp [h1] at h
    | ok dst1 =>
      simp only [h1, except_bind_ok] at h
      by_cases hmem2 : (s, b) ∈ rest
      · exact ih dst1 dst2 h (fun q hq => hbounds q (List.mem_cons_of_mem p hq)) hmem2
      · have hp : p = (s, b) := by
          rcases List.mem_cons.mp hmem with h' | h'
          · exact h'.symm
          · exact absurd h' hmem2
        subst hp
        obtain ⟨dec, hdec, hwrite⟩ :=
          processSeg_written frag offsets fs S B rows cols i dst dst1 s b k
            hs hb hfs hk h1
        refine ⟨dec, hdec, ?_⟩
        rw [foldSeg_untouched frag offsets fs S B rows cols i rest dst1 dst2 h _ ?_]
        · exact hwrite
        · intro q hq t heq
          have hqb := hbounds q (List.mem_cons_of_mem _ hq)
          have hqne : q ≠ (s, b) := fun hc => hmem2 (hc ▸ hq)
          have hr1 : s * B + (B - b - 1) < B * S := rOf_lt s b S B hs hb
          have hr2 : q.1 * B + (B - q.2 - 1) < B * S :=
            rOf_lt q.1 q.2 S B hqb.1 hqb.2
          -- equal indices force equal residues mod the stride
          have hstep : 0 < B * S := by omega
          have hc1 : (B * S) * k + (s * B + (B - b - 1)) =
              (B * S) * t + (q.1 * B + (B - q.2 - 1)) := by omega
          obtain ⟨hkt, hres⟩ := mul_add_decomp (B * S) hstep k _ t _ hr1 hr2 hc1
          have hcomm1 : s * B = B * s := Nat.mul_comm s B
          have hcomm2 : q.1 * B = B * q.1 := Nat.mul_comm q.1 B
          have hB : 0 < B := by omega
          have hres2 : B * s + (B - b - 1) = B * q.1 + (B - q.2 - 1) := by omega
          obtain ⟨hss, hxx⟩ := mul_add_decomp B hB s _ q.1 _ (by omega) (by omega) hres2
          have hbb : b = q.2 := by omega
          exact hqne (by rw [Prod.ext_iff]; exact ⟨hss.symm, hbb.symm⟩)

theorem processFrame_ok (src : PixelDataObject) (fs S B rows cols : Nat)
    (dst dst2 : List Nat) (i : Nat)
    (h : processFrame src fs S B rows cols dst i = .ok dst2) :
    ∃ frag offsets0, src.fragment i = some frag ∧
      readRleHeader frag = .ok offsets0 ∧
      List.foldlM (processSeg frag (offsets0 ++ [frag.length]) fs S B rows cols i)
        dst (pairsSB S B) = .ok dst2 := by
  unfold processFrame at h
  cases h1 : src.fragment i with
  | none => simp [h1, need] at h
  | some frag =>
    simp only [h1, need, except_bind_ok] at h
    cases h2 : readRleHeader frag with
    | error e => simp [h2] at h
    | ok offsets0 =>
      simp only [h2, except_bind_ok] at h
      exact ⟨frag, offsets0, rfl, h2, h⟩

theorem processFrame_length (src : PixelDataObject) (fs S B rows cols : Nat)
    (dst dst2 : List Nat) (i : Nat)
    (h : processFrame src fs S B rows cols dst i = .ok dst2) :
    dst2.length = dst.length := by
  obtain ⟨frag, offsets0, _, _, hfold⟩ := processFrame_ok src fs S B rows cols dst dst2 i h
  exact foldSeg_length frag _ fs S B rows cols i _ dst dst2 hfold

theorem processFrame_untouched (src : PixelDataObject) (fs S B rows cols : Nat)
    (dst dst2 : List Nat) (i : Nat)
    (h : processFrame src fs S B rows cols dst i = .ok dst2)
    (j : Nat) (hj : j < fs * i) : dst2[j]? = dst[j]? := by
  obtain ⟨frag, offsets0, _, _, hfold⟩ := processFrame_ok src fs S B rows cols dst dst2 i h
  refine foldSeg_untouched frag _ fs S B rows cols i _ dst dst2 hfold j ?_
  intro p hp t heq
  omega

theorem processFrame_written (src : PixelDataObject) (fs S B rows cols : Nat)
    (dst dst2 : List Nat) (i s b k : Nat)
    (h : processFrame src fs S B rows cols dst i = .ok dst2)
    (hs : s < S) (hb : b < B) (hfs : fs = B * S * (rows * cols))
    (hk : k < rows * cols) :
    ∃ dec, decodedFrameSegment src (rows * cols) i (s * B + b) = .ok dec ∧
      dst2[fs * i + s * B + (B - b - 1) + (B * S) * k]? = dec[k]? := by
  obtain ⟨frag, offsets0, hfrag, hhdr, hfold⟩ :=
    processFrame_ok src fs S B rows cols dst dst2 i h
  obtain ⟨dec, hdec, hget⟩ := foldSeg_written frag _ fs S B rows cols i s b k
    hs hb hfs hk _ dst dst2 hfold
    (fun p hp => mem_pairsSB.mp (by obtain ⟨p1, p2⟩ := p; exact hp))
    (mem_pairsSB.mpr ⟨hs, hb⟩)
  refine ⟨dec, ?_, hget⟩
  unfold decodedFrameSegment
  rw [hfrag]
  simp only [need, except_bind_ok]
  rw [hhdr]
  simp only [except_bind_ok]
  exact hdec

theorem foldFrames_length (src : PixelDataObject) (fs S B rows cols : Nat) :
    ∀ (L : List Nat) (dst dst2 : List Nat),
    List.foldlM (processFrame src fs S B rows cols) dst L = .ok dst2 →
    dst2.length = dst.length := by
  intro L
  induction L with
  | nil =>
    intro dst dst2 h
    simp only [List.foldlM_nil, except_pure_eq, Except.ok.injEq] at h
    subst h
    rfl
  | cons i0 rest ih =>
    intro dst dst2 h
    rw [List.foldlM_cons] at h
    cases h1 : processFrame src fs S B rows cols dst i0 with
    | error e => simp [h1] at h
    | ok dst1 =>
      simp only [h1, except_bind_ok] at h
      rw [ih dst1 dst2 h, processFrame_length src fs S B rows cols dst dst1 i0 h1]

theorem foldFrames_untouched (src : PixelDataObject) (fs S B rows cols : Nat) :
    ∀ (L : List Nat) (dst dst2 : List Nat),
    List.foldlM (processFrame src fs S B rows cols) dst L = .ok dst2 →
    ∀ j, (∀ i2 ∈ L, j < fs * i2) → dst2[j]? = dst[j]? := by
  intro L
  induction L with
  | nil =>
    intro dst dst2 h j _
    simp only [List.foldlM_nil, except_pure_eq, Except.ok.injEq] at h
    subst h
    rfl
  | cons i0 rest ih =>
    intro dst dst2 h j hj
    rw [List.foldlM_cons] at h
    cases h1 : processFrame src fs S B rows cols dst i0 with
    | error e => simp [h1] at h
    | ok dst1 =>
      simp only [h1, except_bind_ok] at h
      rw [ih dst1 dst2 h j (fun q hq => hj q (List.mem_cons_of_mem i0 hq))]
      exact processFrame_untouched src fs S B rows cols dst dst1 i0 h1 j
        (hj i0 (List.mem_cons_self _ _))

theorem foldFrames_written (src : PixelDataObject) (fs S B rows cols i s b k : Nat)
    (hs : s < S) (hb : b < B) (hfs : fs = B * S * (rows * cols))
    (hk : k < rows * cols) :
    ∀ (L : List Nat) (dst dst2 : List Nat),
    List.foldlM (processFrame src fs S B rows cols) dst L = .ok dst2 →
    L.Pairwise (· < ·) → i ∈ L →
    ∃ dec, decodedFrameSegment src (rows * cols) i (s * B + b) = .ok dec ∧
      dst2[fs * i + s * B + (B - b - 1) + (B * S) * k]? = dec[k]? := by
  intro L
  induction L with
  | nil => intro dst dst2 _ _ hmem; simp at hmem
  | cons i0 rest ih =>
    intro dst dst2 h hpw hmem
    rw [List.foldlM_cons] at h
    rw [List.pairwise_cons] at hpw
    cases h1 : processFrame src fs S B rows cols dst i0 with
    | error e => simp [h1] at h
    | ok dst1 =>
      simp only [h1, except_bind_ok] at h
      by_cases hmem2 : i ∈ rest
      · exact ih dst1 dst2 h hpw.2 hmem2
      · have hi0 : i0 = i := by
          rcases List.mem_cons.mp hmem with h2 | h2
          · exact h2.symm
          · exact absurd h2 hmem2
        subst hi0
        obtain ⟨dec, hdec, hget⟩ := processFrame_written src fs S B rows cols
          dst dst1 i0 s b k h1 hs hb hfs hk
        refine ⟨dec, hdec, ?_⟩
        rw [foldFrames_untouched src fs S B rows cols rest dst1 dst2 h _ ?_]
        · exact hget
        · intro i2 hi2
          have hlt : i0 < i2 := hpw.1 i2 hi2
          have hr := rOf_lt s b S B hs hb
          have hkk : (B * S) * k ≤ (B * S) * (rows * cols - 1) :=
            Nat.mul_le_mul_left (B * S) (by omega)
          have hsum : (B * S) * (rows * cols - 1) + (B * S) = fs := by
            have h2 : rows * cols - 1 + 1 = rows * cols := by omega
            calc (B * S) * (rows * cols - 1) + (B * S)
                = (B * S) * (rows * cols - 1 + 1) := by ring
              _ = (B * S) * (rows * cols) := by rw [h2]
              _ = fs := by rw [hfs]
          have hmul : fs * (i0 + 1) ≤ fs * i2 := Nat.mul_le_mul_left fs (by omega)
          have hexp : fs * (i0 + 1) = fs * i0 + fs := by ring
          omega

/-! ## Decode-level decomposition and index-map bijection -/

theorem resizeTo_length (l : List Nat) (n : Nat) : (resizeTo l n).length = n := by
  unfold resizeTo
  split
  · rw [List.length_take]; omega
  · rw [List.length_append, List.length_replicate]; omega

theorem decode_ok_components (src : PixelDataObject) (dst dst2 : List Nat)
    (cols rows S bits N : Nat)
    (hc : src.cols = some cols) (hr : src.rows = some rows)
    (hsp : src.samplesPerPixel = some S) (hba : src.bitsAllocated = some bits)
    (hn : src.numberOfFragments = some N)
    (h : decode src dst = .ok dst2) :
    (bits = 8 ∨ bits = 16) ∧
    List.foldlM (processFrame src (S * (bits / 8 * cols * rows)) S (bits / 8) rows cols)
      (resizeTo dst (S * (bits / 8 * cols * rows) * N)) (List.range N) = .ok dst2 := by
  unfold decode at h
  simp only [hc, hr, hsp, hba, hn, need, except_bind_ok] at h
  split at h
  · simp at h
  · rename_i hbits
    exact ⟨by omega, h⟩

theorem A_lt (fs S B P N : Nat) (hfs : fs = B * S * P) (i s b k : Nat)
    (hi : i < N) (hs : s < S) (hb : b < B) (hk : k < P) :
    fs * i + s * B + (B - b - 1) + k * (S * B) < fs * N := by
  have h1 : s * B + (B - b - 1) < B * S := rOf_lt s b S B hs hb
  have h2 : k * (S * B) ≤ (P - 1) * (S * B) :=
    Nat.mul_le_mul_right (S * B) (by omega)
  have h3 : fs * i + fs ≤ fs * N := by
    have h4 : fs * i + fs = fs * (i + 1) := by ring
    rw [h4]
    exact Nat.mul_le_mul_left fs (by omega)
  have h5 : (P - 1) * (S * B) + (S * B) = fs := by
    have h6 : P - 1 + 1 = P := by omega
    calc (P - 1) * (S * B) + (S * B) = (P - 1 + 1) * (S * B) := by ring
      _ = P * (S * B) := by rw [h6]
      _ = fs := by rw [hfs]; ring
  have h7 : B * S = S * B := Nat.mul_comm B S
  omega

theorem A_surj (fs S B P N : Nat) (hfs : fs = B * S * P) (j : Nat)
    (hj : j < fs * N) :
    ∃ i s b k, i < N ∧ s < S ∧ b < B ∧ k < P ∧
      fs * i + s * B + (B - b - 1) + k * (S * B) = j := by
  have hfs0 : 0 < fs := by
    rcases Nat.eq_zero_or_pos fs with h0 | h0
    · rw [h0] at hj; simp at hj
    · exact h0
  have hB : 0 < B := by
    rcases Nat.eq_zero_or_pos B with h0 | h0
    · rw [h0] at hfs; simp at hfs; omega
    · exact h0
  have hS : 0 < S := by
    rcases Nat.eq_zero_or_pos S with h0 | h0
    · rw [h0] at hfs; simp at hfs; omega
    · exact h0
  have hP : 0 < P := by
    rcases Nat.eq_zero_or_pos P with h0 | h0
    · rw [h0] at hfs; simp at hfs; omega
    · exact h0
  have hSB : 0 < S * B := Nat.mul_pos hS hB
  refine ⟨j / fs, j % fs % (S * B) / B, B - 1 - j % fs % (S * B) % B,
    j % fs / (S * B), Nat.div_lt_of_lt_mul hj, ?_, by omega, ?_, ?_⟩
  · apply Nat.div_lt_of_lt_mul
    have h1 : j % fs % (S * B) < S * B := Nat.mod_lt _ hSB
    have h2 : S * B = B * S := Nat.mul_comm S B
    omega
  · apply Nat.div_lt_of_lt_mul
    have h1 : j % fs < fs := Nat.mod_lt _ hfs0
    have h2 : fs = S * B * P := by rw [hfs]; ring
    omega
  · have e1 : fs * (j / fs) + j % fs = j := Nat.div_add_mod j fs
    have e2 : S * B * (j % fs / (S * B)) + j % fs % (S * B) = j % fs :=
      Nat.div_add_mod _ _
    have e3 : B * (j % fs % (S * B) / B) + j % fs % (S * B) % B = j % fs % (S * B) :=
      Nat.div_add_mod _ _
    have hx : j % fs % (S * B) % B < B := Nat.mod_lt _ hB
    have c1 : j % fs % (S * B) / B * B = B * (j % fs % (S * B) / B) := Nat.mul_comm _ _
    have c2 : j % fs / (S * B) * (S * B) = S * B * (j % fs / (S * B)) := Nat.mul_comm _ _
    omega

theorem A_inj (fs S B P : Nat) (hfs : fs = B * S * P)
    (i s b k i2 s2 b2 k2 : Nat)
    (hs : s < S) (hb : b < B) (hk : k < P)
    (hs2 : s2 < S) (hb2 : b2 < B) (hk2 : k2 < P)
    (h : fs * i + s * B + (B - b - 1) + k * (S * B) =
         fs * i2 + s2 * B + (B - b2 - 1) + k2 * (S * B)) :
    i = i2 ∧ s = s2 ∧ b = b2 ∧ k = k2 := by
  have hB : 0 < B := by omega
  have hS : 0 < S := by omega
  have hP : 0 < P := by omega
  have hr1 : s * B + (B - b - 1) < B * S := rOf_lt s b S B hs hb
  have hr2 : s2 * B + (B - b2 - 1) < B * S := rOf_lt s2 b2 S B hs2 hb2
  have hstep : 0 < B * S := Nat.mul_pos hB hS
  have hcomm : S * B = B * S := Nat.mul_comm S B
  have hk1m : k * (S * B) ≤ (P - 1) * (S * B) :=
    Nat.mul_le_mul_right (S * B) (by omega)
  have hk2m : k2 * (S * B) ≤ (P - 1) * (S * B) :=
    Nat.mul_le_mul_right (S * B) (by omega)
  have hPm : (P - 1) * (S * B) + S * B = fs := by
    have h1 : P - 1 + 1 = P := by omega
    calc (P - 1) * (S * B) + S * B = (P - 1 + 1) * (S * B) := by ring
      _ = P * (S * B) := by rw [h1]
      _ = fs := by rw [hfs]; ring
  have hfs0 : 0 < fs := by omega
  have hR1 : s * B + (B - b - 1) + k * (S * B) < fs := by omega
  have hR2 : s2 * B + (B - b2 - 1) + k2 * (S * B) < fs := by omega
  have hframe : fs * i + (s * B + (B - b - 1) + k * (S * B)) =
      fs * i2 + (s2 * B + (B - b2 - 1) + k2 * (S * B)) := by omega
  obtain ⟨hii, hRR⟩ := mul_add_decomp fs hfs0 i _ i2 _ hR1 hR2 hframe
  have hck : k * (S * B) = B * S * k := by ring
  have hck2 : k2 * (S * B) = B * S * k2 := by ring
  have hstage : B * S * k + (s * B + (B - b - 1)) =
      B * S * k2 + (s2 * B + (B - b2 - 1)) := by omega
  obtain ⟨hkk, hrr⟩ := mul_add_decomp (B * S) hstep k _ k2 _ hr1 hr2 hstage
  have hc1 : s * B = B * s := Nat.mul_comm _ _
  have hc2 : s2 * B = B * s2 := Nat.mul_comm _ _
  have hstage2 : B * s + (B - b - 1) = B * s2 + (B - b2 - 1) := by omega
  obtain ⟨hss, hxx⟩ := mul_add_decomp B hB s _ s2 _ (by omega) (by omega) hstage2
  exact ⟨hii, hss, by omega, hkk⟩

/-- Concrete evaluation of the decoder on `src0`: the single literal byte
`0xAA` of the single 1x1 8-bit frame lands in the one-byte output. -/
theorem decode_src0_eval : decode src0 [] = .ok [170] := by
  have hseg : decodeSegment [0, 170] [0] 0 = .ok ([170], 1) := by
    rw [decodeSegment_lit 0 [170] [0] 0 (by decide) (by decide) (by decide) (by decide),
      decodeSegment_done _ _ _ (by decide)]
    rfl
  have hcore : decodedSegmentCore frag0 [64, 66] 1 0 = .ok [170] := by
    unfold decodedSegmentCore
    rw [show (([64, 66] : List Nat))[(0 : Nat)]? = some 64 from rfl,
      show (([64, 66] : List Nat))[(0 : Nat) + 1]? = some 66 from rfl]
    simp only [need, except_bind_ok]
    rw [show sliceOrPanic frag0 64 66 = .ok [0, 170] from rfl]
    simp only [except_bind_ok]
    rw [show List.replicate 1 (0 : Nat) = [0] from rfl, hseg]
    rfl
  have hps : processSeg frag0 [64, 66] 1 1 1 1 1 0 [0] (0, 0) = .ok [170] := by
    unfold processSeg
    rw [show ((1 : Nat) * 1) = 1 from rfl,
      show ((0, 0) : Nat × Nat).1 * 1 + ((0, 0) : Nat × Nat).2 = 0 from rfl]
    rw [hcore]
    simp only [except_bind_ok]
    rfl
  have hpf : processFrame src0 1 1 1 1 1 [0] 0 = .ok [170] := by
    unfold processFrame
    rw [show src0.fragment 0 = some frag0 from rfl]
    simp only [need, except_bind_ok]
    rw [show readRleHeader frag0 = .ok [64] from rfl]
    simp only [except_bind_ok]
    rw [show ([64] : List Nat) ++ [frag0.length] = [64, 66] from rfl,
      show pairsSB 1 1 = [(0, 0)] from rfl]
    rw [List.foldlM_cons, hps]
    simp only [except_bind_ok, List.foldlM_nil]
    rfl
  unfold decode
  rw [show src0.cols = some 1 from rfl, show src0.rows = some 1 from rfl,
    show src0.samplesPerPixel = some 1 from rfl,
    show src0.bitsAllocated = some 8 from rfl]
  simp only [need, except_bind_ok]
  rw [if_neg (by decide)]
  rw [show src0.numberOfFragments = some 1 from rfl]
  simp only [need, except_bind_ok]
  rw [show resizeTo [] (1 * (8 / 8 * 1 * 1) * 1) = [0] from rfl,
    show List.range 1 = [0] from rfl]
  rw [List.foldlM_cons]
  rw [show (8 : Nat) / 8 = 1 from rfl]
  rw [hpf]
  simp only [except_bind_ok, List.foldlM_nil]
  rfl

/-- Claim C1: RLE interleaving.  For every frame `i`, sample `s`, byte
position `b` and pixel index `k < rows*cols`, a successful decode leaves
the `k`-th byte of the decoded segment with index
`s * bytes_per_sample + b` at output index
`frame_size * i + s * bytes_per_sample + (bytes_per_sample - b - 1)
 + k * (samples_per_pixel * bytes_per_sample)`
(with `frame_size = samples_per_pixel * (bytes_per_sample * cols * rows)`
as computed by the decoder). -/
theorem claim_c1_rle_interleaving (src : PixelDataObject) (dst0 dst2 : List Nat)
    (cols rows S bits N : Nat)
    (hc : src.cols = some cols) (hr : src.rows = some rows)
    (hsp : src.samplesPerPixel = some S) (hba : src.bitsAllocated = some bits)
    (hn : src.numberOfFragments = some N)
    (hdec : decode src dst0 = .ok dst2)
    (i s b k : Nat) (hi : i < N) (hs : s < S) (hb : b < bits / 8)
    (hk : k < rows * cols) :
    ∃ dec, decodedFrameSegment src (rows * cols) i (s * (bits / 8) + b) = .ok dec ∧
      dst2[S * (bits / 8 * cols * rows) * i + s * (bits / 8) + (bits / 8 - b - 1) +
        k * (S * (bits / 8))]? = dec[k]? := by
  obtain ⟨hbits, hfold⟩ := decode_ok_components src dst0 dst2 cols rows S bits N
    hc hr hsp hba hn hdec
  obtain ⟨dec, hdec2, hget⟩ := foldFrames_written src (S * (bits / 8 * cols * rows))
    S (bits / 8) rows cols i s b k hs hb (by ring) hk (List.range N)
    _ dst2 hfold (List.pairwise_lt_range N) (List.mem_range.mpr hi)
  refine ⟨dec, hdec2, ?_⟩
  rw [show k * (S * (bits / 8)) = bits / 8 * S * k from by ring]
  exact hget

/-- Witness for claim C1 on the concrete object `src0`: the decoded
segment byte 0 appears at the claimed output index 0. -/
theorem claim_c1_witness :
    ∃ dec, decodedFrameSegment src0 (1 * 1) 0 (0 * (8 / 8) + 0) = .ok dec ∧
      ([170] : List Nat)[1 * (8 / 8 * 1 * 1) * 0 + 0 * (8 / 8) + (8 / 8 - 0 - 1) +
        0 * (1 * (8 / 8))]? = dec[0]? :=
  claim_c1_rle_interleaving src0 [] [170] 1 1 1 8 1 rfl rfl rfl rfl rfl
    decode_src0_eval 0 0 0 0 (by decide) (by decide) (by decide) (by decide)

/-- Claim C9: for every successful RLE decode the destination is resized to
exactly `nr_fragments * samples_per_pixel * rows * cols * (bits/8)` bytes;
every claimed write index lies inside it; every byte of it is covered by
exactly one `(frame, sample, byte, pixel)` write — the decoder writes
exactly `frame_size * number_of_frames` bytes and no more. -/
theorem claim_c9_output_size (src : PixelDataObject) (dst0 dst2 : List Nat)
    (cols rows S bits N : Nat)
    (hc : src.cols = some cols) (hr : src.rows = some rows)
    (hsp : src.samplesPerPixel = some S) (hba : src.bitsAllocated = some bits)
    (hn : src.numberOfFragments = some N)
    (hdec : decode src dst0 = .ok dst2) :
    dst2.length = N * S * rows * cols * (bits / 8) ∧
    (∀ i s b k, i < N → s < S → b < bits / 8 → k < rows * cols →
      S * (bits / 8 * cols * rows) * i + s * (bits / 8) + (bits / 8 - b - 1) +
        k * (S * (bits / 8)) < dst2.length) ∧
    (∀ j, j < dst2.length → ∃ i s b k, i < N ∧ s < S ∧ b < bits / 8 ∧
      k < rows * cols ∧
      S * (bits / 8 * cols * rows) * i + s * (bits / 8) + (bits / 8 - b - 1) +
        k * (S * (bits / 8)) = j) ∧
    (∀ i s b k i2 s2 b2 k2, s < S → b < bits / 8 → k < rows * cols →
      s2 < S → b2 < bits / 8 → k2 < rows * cols →
      S * (bits / 8 * cols * rows) * i + s * (bits / 8) + (bits / 8 - b - 1) +
        k * (S * (bits / 8)) =
      S * (bits / 8 * cols * rows) * i2 + s2 * (bits / 8) + (bits / 8 - b2 - 1) +
        k2 * (S * (bits / 8)) →
      i = i2 ∧ s = s2 ∧ b = b2 ∧ k = k2) := by
  obtain ⟨hbits, hfold⟩ := decode_ok_components src dst0 dst2 cols rows S bits N
    hc hr hsp hba hn hdec
  have hlen : dst2.length = S * (bits / 8 * cols * rows) * N := by
    rw [foldFrames_length src (S * (bits / 8 * cols * rows)) S (bits / 8) rows cols
      (List.range N) _ dst2 hfold, resizeTo_length]
  refine ⟨by rw [hlen]; ring, ?_, ?_, ?_⟩
  · intro i s b k hi hs hb hk
    rw [hlen]
    exact A_lt (S * (bits / 8 * cols * rows)) S (bits / 8) (rows * cols) N
      (by ring) i s b k hi hs hb hk
  · intro j hj
    rw [hlen] at hj
    exact A_surj (S * (bits / 8 * cols * rows)) S (bits / 8) (rows * cols) N
      (by ring) j hj
  · intro i s b k i2 s2 b2 k2 hs hb hk hs2 hb2 hk2 heq
    exact A_inj (S * (bits / 8 * cols * rows)) S (bits / 8) (rows * cols)
      (by ring) i s b k i2 s2 b2 k2 hs hb hk hs2 hb2 hk2 heq

/-- Witness for claim C9 on `src0`: the output has exactly
`1 * 1 * 1 * 1 * (8/8) = 1` byte. -/
theorem claim_c9_witness :
    ([170] : List Nat).length = 1 * 1 * 1 * 1 * (8 / 8) :=
  (claim_c9_output_size src0 [] [170] 1 1 1 8 1 rfl rfl rfl rfl rfl
    decode_src0_eval).1

end Dicom
